import Mathlib

/-!
Shallow embedding of `overleaf_pull.py` (an Overleaf project puller: build a
cookie header, fetch a CSRF token, download a project zip, extract it with
optional flattening of a single common root directory), together with proofs
checking the natural-language specification against it.

Python strings are modelled as `List Char`, byte strings as `List Nat`
(each element < 256 at the call sites of interest), and the filesystem as a
function from paths (lists of path segments) to an optional node (directory
or file with contents).  HTTP responses are passed explicitly: a network
`get` is modelled by handing the function the response the mocked transport
would return for the session's current headers.
-/

namespace OverleafPull

/-- Turn a Lean string literal into the `List Char` model of a Python str. -/
def chars (s : String) : List Char :=
  s.data

/-- Whitespace stripped by Python `str.strip()` (ASCII portion, which covers
every literal this development manipulates). -/
def pyWhitespace (c : Char) : Bool :=
  c = ' ' || c = '\t' || c = '\n' || c = '\r' || c.toNat = 11 || c.toNat = 12

/-- Model of Python `s.strip()`: drop whitespace from both ends. -/
def pyStrip (s : List Char) : List Char :=
  (((s.dropWhile pyWhitespace).reverse).dropWhile pyWhitespace).reverse

/-- Model of Python `s.rstrip("/")`: drop trailing `'/'` characters. -/
def pyRstripSlash (s : List Char) : List Char :=
  ((s.reverse).dropWhile (fun c => c = '/')).reverse

/-- Model of Python ASCII `str.lower()` applied character-wise (all
comparisons in the source involve the ASCII constant `"overleaf.sid="`). -/
def pyLower (s : List Char) : List Char :=
  s.map Char.toLower

/-- `_normalize_base_url(url) = url.rstrip("/")` (source line 16). -/
def _normalize_base_url (url : List Char) : List Char :=
  pyRstripSlash url

/-- The cookie key prefix `"overleaf.sid="` expected by Overleaf. -/
def cookieKey : List Char :=
  chars (r"overleaf.sid=")

/-- `_cookie_header` (source lines 20-24): if the stripped cookie,
lower-cased, starts with `"overleaf.sid="` return the stripped cookie,
else prepend the key. -/
def _cookie_header (cookie : List Char) : List Char :=
  if cookieKey.isPrefixOf (pyLower (pyStrip cookie)) then pyStrip cookie
  else cookieKey ++ pyStrip cookie

/-- Model of Python `name.split("/")`: split on every slash, keeping empty
pieces (`"a//b".split("/") == ["a", "", "b"]`, `"".split("/") == [""]`). -/
def pySplitSlash : List Char → List (List Char)
  | [] => [[]]
  | c :: cs =>
    if c = '/' then [] :: pySplitSlash cs
    else
      match pySplitSlash cs with
      | [] => [[c]]
      | r :: rs => (c :: r) :: rs

/-- First non-empty slash-separated segment of a path
(`[p for p in name.split("/") if p][0]`, as an `Option`). -/
def firstSegment (name : List Char) : Option (List Char) :=
  ((pySplitSlash name).filter (fun p => p ≠ [])).head?

/-- `_single_root_dir` (source lines 55-69): the set of first segments of
all entries must have exactly one element `single`, and some entry must
start with `single ++ "/"`. -/
def _single_root_dir (names : List (List Char)) : Option (List Char) :=
  match (names.filterMap firstSegment).dedup with
  | [single] =>
    if names.any (fun n => (single ++ ['/']).isPrefixOf n) then some single
    else none
  | _ => none

/-! ### HTTP layer -/

/-- Error taxonomy of the tool: `remoteError` models the exception raised by
`raise_for_status` (it carries the offending URL and status code);
`formatError` models the `RuntimeError` raised when the downloaded body does
not start with the zip magic (it carries the declared content type and the
preview, i.e. the first at-most-200 body bytes decoded as UTF-8 with
replacement, as the code points interpolated into the message). -/
inductive Err : Type
  | remoteError (url : List Char) (status : Nat)
  | formatError (contentType : List Char) (preview : List Nat)
  deriving DecidableEq, Repr

/-- Model of `requests.Response.raise_for_status()`: raises exactly for
status codes in `[400, 600)`. -/
def raise_for_status (url : List Char) (status : Nat) : Except Err Unit :=
  if 400 ≤ status ∧ status < 600 then .error (.remoteError url status)
  else .ok ()

/-- A response to the project-page GET, as seen by `get_csrf_token`:
status code and decoded text body. -/
structure HttpTextResponse : Type where
  status : Nat
  text : List Char
  deriving DecidableEq, Repr

/-- A response to the zip-download GET, as seen by `download_zip`:
status code, `Content-Type` header (the `headers.get(..., "")` default is
the empty list) and raw body bytes. -/
structure HttpBytesResponse : Type where
  status : Nat
  contentType : List Char
  content : List Nat
  deriving DecidableEq, Repr

/-- `f"{base_url}/project/{project_id}"` (source line 29). -/
def projectUrl (base_url project_id : List Char) : List Char :=
  base_url ++ chars (r"/project/") ++ project_id

/-- `f"{base_url}/project/{project_id}/download/zip"` (source line 40). -/
def zipUrl (base_url project_id : List Char) : List Char :=
  projectUrl base_url project_id ++ chars (r"/download/zip")

/-- The literal part of the regex
`<meta name="ol-csrfToken" content="([^"]*)"` before the capture group. -/
def csrfLit : List Char :=
  chars (r"<meta name=") ++ ['"'] ++ chars (r"ol-csrfToken") ++ ['"'] ++
    chars (r" content=") ++ ['"']

/-- One attempt of the regex at the current position: the literal must be a
prefix, then `([^"]*)` greedily takes non-quote characters and the final
`"` must be present, so the attempt succeeds exactly when a quote occurs in
the remainder and captures everything before the first one. -/
def csrfTryMatch (s : List Char) : Option (List Char) :=
  if csrfLit.isPrefixOf s then
    let rest := s.drop csrfLit.length
    if '"' ∈ rest then some (rest.takeWhile (fun c => c ≠ '"')) else none
  else none

/-- `re.search` for the token pattern: try every position left to right and
return the first successful match's capture. -/
def reSearchCsrf : List Char → Option (List Char)
  | [] => none
  | c :: cs =>
    match csrfTryMatch (c :: cs) with
    | some v => some v
    | none => reSearchCsrf cs

/-- `get_csrf_token` (source lines 27-33) applied to the response of the
single GET it performs: check the status, then scan the body text. -/
def get_csrf_token (base_url project_id : List Char) (r : HttpTextResponse) :
    Except Err (Option (List Char)) :=
  match raise_for_status (projectUrl base_url project_id) r.status with
  | .error e => .error e
  | .ok _ => .ok (reSearchCsrf r.text)

/-- Is a byte a UTF-8 continuation byte (`0x80-0xBF`)? -/
def utf8Cont (b : Nat) : Bool :=
  0x80 ≤ b && b ≤ 0xBF

/-- The Unicode replacement character U+FFFD. -/
def replacementChar : Nat := 0xFFFD

/-- Range of the first continuation byte of a 3-byte sequence, depending on
the lead byte (excludes overlong encodings and surrogates). -/
def utf8Cont3First (lead b : Nat) : Bool :=
  if lead = 0xE0 then 0xA0 ≤ b && b ≤ 0xBF
  else if lead = 0xED then 0x80 ≤ b && b ≤ 0x9F
  else utf8Cont b

/-- Range of the first continuation byte of a 4-byte sequence, depending on
the lead byte (excludes overlong encodings and values above U+10FFFF). -/
def utf8Cont4First (lead b : Nat) : Bool :=
  if lead = 0xF0 then 0x90 ≤ b && b ≤ 0xBF
  else if lead = 0xF4 then 0x80 ≤ b && b ≤ 0x8F
  else utf8Cont b

/-- Model of Python `bytes.decode("utf-8", errors="replace")`, producing the
list of decoded code points: valid sequences decode normally, and each
maximal subpart of an invalid sequence becomes one U+FFFD. -/
def utf8DecodeReplace : List Nat → List Nat
  | [] => []
  | b :: bs =>
    if b < 0x80 then b :: utf8DecodeReplace bs
    else if 0xC2 ≤ b && b ≤ 0xDF then
      match bs with
      | [] => [replacementChar]
      | b1 :: bs1 =>
        if utf8Cont b1 then
          ((b - 0xC0) * 0x40 + (b1 - 0x80)) :: utf8DecodeReplace bs1
        else replacementChar :: utf8DecodeReplace (b1 :: bs1)
    else if 0xE0 ≤ b && b ≤ 0xEF then
      match bs with
      | [] => [replacementChar]
      | b1 :: bs1 =>
        if utf8Cont3First b b1 then
          match bs1 with
          | [] => [replacementChar]
          | b2 :: bs2 =>
            if utf8Cont b2 then
              ((b - 0xE0) * 0x1000 + (b1 - 0x80) * 0x40 + (b2 - 0x80)) ::
                utf8DecodeReplace bs2
            else replacementChar :: utf8DecodeReplace (b2 :: bs2)
        else replacementChar :: utf8DecodeReplace (b1 :: bs1)
    else if 0xF0 ≤ b && b ≤ 0xF4 then
      match bs with
      | [] => [replacementChar]
      | b1 :: bs1 =>
        if utf8Cont4First b b1 then
          match bs1 with
          | [] => [replacementChar]
          | b2 :: bs2 =>
            if utf8Cont b2 then
              match bs2 with
              | [] => [replacementChar]
              | b3 :: bs3 =>
                if utf8Cont b3 then
                  ((b - 0xF0) * 0x40000 + (b1 - 0x80) * 0x1000 +
                      (b2 - 0x80) * 0x40 + (b3 - 0x80)) ::
                    utf8DecodeReplace bs3
                else replacementChar :: utf8DecodeReplace (b3 :: bs3)
            else replacementChar :: utf8DecodeReplace (b2 :: bs2)
        else replacementChar :: utf8DecodeReplace (b1 :: bs1)
    else replacementChar :: utf8DecodeReplace bs

/-- The two-byte zip magic `b"PK"`. -/
def zipMagic : List Nat := [0x50, 0x4B]

/-- `download_zip` (source lines 36-52) applied to the response of the
single GET it performs: check the status, then require the body to start
with `b"PK"`; on failure raise the format error carrying the content type
and the decoded preview of the first 200 bytes, on success return the raw
bytes. -/
def download_zip (base_url project_id : List Char) (r : HttpBytesResponse) :
    Except Err (List Nat) :=
  match raise_for_status (zipUrl base_url project_id) r.status with
  | .error e => .error e
  | .ok _ =>
    if r.content.take 2 = zipMagic then .ok r.content
    else
      .error (.formatError r.contentType
        (utf8DecodeReplace (r.content.take 200)))

/-! ### Filesystem model and `extract_zip` -/

/-- A filesystem node: a directory or a regular file with its byte contents. -/
inductive Node : Type
  | dir
  | file (content : List Nat)
  deriving DecidableEq, Repr

/-- An absolute path, as the list of its segments from the filesystem root. -/
abbrev FsPath : Type := List (List Char)

/-- The filesystem: a map from paths to an optional node. -/
abbrev FS : Type := FsPath → Option Node

/-- The empty filesystem. -/
def emptyFS : FS := fun _ => none

/-- Write one node at one path. -/
def setFS (fs : FS) (p : FsPath) (n : Node) : FS :=
  fun q => if q = p then some n else fs q

/-- Does the optional node hold a regular file? -/
def isFileNode : Option Node → Bool
  | some (.file _) => true
  | _ => false

/-- Does the optional node hold a directory? -/
def isDirNode : Option Node → Bool
  | some .dir => true
  | _ => false

/-- Filesystem errors during extraction: `mkdir` on an existing regular file
(`FileExistsError` / `NotADirectoryError`), or opening an existing directory
for writing (`IsADirectoryError`). -/
inductive FsErr : Type
  | mkdirOnFile (p : FsPath)
  | writeOnDir (p : FsPath)
  deriving DecidableEq, Repr

/-- Ensure each path of the list is a directory, in order: error if a
regular file sits at one of them, create it as a directory otherwise
(creating over an existing directory is a no-op up to the stored value). -/
def ensureDirs (fs : FS) : List FsPath → Except FsErr FS
  | [] => .ok fs
  | q :: qs =>
    if isFileNode (fs q) then .error (.mkdirOnFile q)
    else ensureDirs (setFS fs q .dir) qs

/-- All prefixes of a path from the root `[]` up to the path itself,
shortest first. -/
def prefixesIncl (p : FsPath) : List FsPath :=
  (List.range (p.length + 1)).map (fun k => p.take k)

/-- Model of `Path.mkdir(parents=True, exist_ok=True)`: ensure every prefix
of the path (ancestors first) is a directory. -/
def mkdirParents (fs : FS) (p : FsPath) : Except FsErr FS :=
  ensureDirs fs (prefixesIncl p)

/-- Model of `path.write_bytes(content)` / `open(path, "wb")`: error if a
directory sits at the path, else (over)write the file. -/
def writeFile (fs : FS) (p : FsPath) (content : List Nat) : Except FsErr FS :=
  if isDirNode (fs p) then .error (.writeOnDir p)
  else .ok (setFS fs p (.file content))

/-- Segments of a relative path as interpreted by `pathlib` when joined
with `/`: split on slashes, dropping empty components and `"."`
(`".."` is kept as an opaque segment; no traversal semantics are modelled). -/
def pathlibSegs (s : List Char) : FsPath :=
  ((pySplitSlash s).filter (fun seg => seg ≠ [] ∧ seg ≠ ['.']))

/-- Model of `output_dir / rel` for a `pathlib` path: if `rel` is absolute
(leading slash) it replaces the base entirely, otherwise its segments are
appended to the base. -/
def pathlibJoin (base : FsPath) (rel : List Char) : FsPath :=
  if rel.head? = some '/' then pathlibSegs rel else base ++ pathlibSegs rel

/-- Segments of an archive member name as sanitized by
`zipfile.ZipFile.extract`: split on slashes and drop `""`, `"."` and `".."`
components, then join under the destination directory. -/
def zipSanitizedSegs (s : List Char) : FsPath :=
  ((pySplitSlash s).filter
    (fun seg => seg ≠ [] ∧ seg ≠ ['.'] ∧ seg ≠ ['.', '.']))

/-- One archive entry: its slash-separated name and its decompressed
payload (empty for directory entries). -/
structure ZipEntry : Type where
  filename : List Char
  content : List Nat
  deriving DecidableEq, Repr

/-- `ZipInfo.is_dir()`: the name ends with a slash. -/
def ZipEntry.isDirEntry (e : ZipEntry) : Bool :=
  e.filename.getLast? = some '/'

/-- The body of the flattening loop of `extract_zip` (source lines 83-94)
for one entry: skip entries not under `root ++ "/"`, strip the prefix and
trailing slashes, skip the bare root marker, then create the directory or
write the file (creating parent directories first). -/
def flattenStep (output_dir : FsPath) (root : List Char) (fs : FS)
    (e : ZipEntry) : Except FsErr FS :=
  if (root ++ ['/']).isPrefixOf e.filename then
    if pyRstripSlash (e.filename.drop (root.length + 1)) = [] then .ok fs
    else
      if e.isDirEntry then
        mkdirParents fs
          (pathlibJoin output_dir
            (pyRstripSlash (e.filename.drop (root.length + 1))))
      else
        match mkdirParents fs
            (pathlibJoin output_dir
              (pyRstripSlash (e.filename.drop (root.length + 1)))).dropLast
          with
        | .error er => .error er
        | .ok fs1 =>
          writeFile fs1
            (pathlibJoin output_dir
              (pyRstripSlash (e.filename.drop (root.length + 1))))
            e.content
  else .ok fs

/-- One member extraction of `ZipFile.extractall` (source line 96): ensure
the parent directories of the sanitized target, then create the directory
or write the file. -/
def extractallStep (output_dir : FsPath) (fs : FS) (e : ZipEntry) :
    Except FsErr FS :=
  match mkdirParents fs (output_dir ++ zipSanitizedSegs e.filename).dropLast
    with
  | .error er => .error er
  | .ok fs1 =>
    if e.isDirEntry then
      mkdirParents fs1 (output_dir ++ zipSanitizedSegs e.filename)
    else writeFile fs1 (output_dir ++ zipSanitizedSegs e.filename) e.content

/-- The flattening `for` loop over the entry list. -/
def runFlatten (output_dir : FsPath) (root : List Char) (fs : FS) :
    List ZipEntry → Except FsErr FS
  | [] => .ok fs
  | e :: es =>
    match flattenStep output_dir root fs e with
    | .error er => .error er
    | .ok fs1 => runFlatten output_dir root fs1 es

/-- `extractall` over the entry list. -/
def runExtractall (output_dir : FsPath) (fs : FS) :
    List ZipEntry → Except FsErr FS
  | [] => .ok fs
  | e :: es =>
    match extractallStep output_dir fs e with
    | .error er => .error er
    | .ok fs1 => runExtractall output_dir fs1 es

/-- `extract_zip` (source lines 72-96), at the level of the already-parsed
entry list: create the output directory (with parents, idempotently), look
for a single root when flattening is enabled, then run the flattening loop
or plain `extractall`. -/
def extract_zip (zip_entries : List ZipEntry) (output_dir : FsPath)
    (flatten_single_root : Bool) (fs : FS) : Except FsErr FS :=
  match mkdirParents fs output_dir with
  | .error er => .error er
  | .ok fs0 =>
    match
      (if flatten_single_root then
        _single_root_dir (zip_entries.map (fun e => e.filename))
      else none) with
    | some root => runFlatten output_dir root fs0 zip_entries
    | none => runExtractall output_dir fs0 zip_entries

/-! ### Entry point -/

/-- Session headers, as an association list from header name to value. -/
abbrev Headers : Type := List (List Char × List Char)

/-- Set (or overwrite) one header. -/
def setHeader (hs : Headers) (k v : List Char) : Headers :=
  (hs.filter (fun p => p.1 ≠ k)) ++ [(k, v)]

/-- Look a header up. -/
def getHeader (hs : Headers) (k : List Char) : Option (List Char) :=
  (hs.find? (fun p => p.1 = k)).map (fun p => p.2)

/-- Command-line arguments of the tool. -/
structure Args : Type where
  project_id : List Char
  cookie : List Char
  base_url : List Char
  output_dir : FsPath

/-- The session headers right after construction (source lines 119-120):
only the `Cookie` header is set. -/
def initialHeaders (args : Args) : Headers :=
  [(chars (r"Cookie"), _cookie_header args.cookie)]

/-- The header update of source lines 124-125: `if csrf:` attaches the
token, so a missing token — and likewise a found-but-empty one, which is
falsy in Python — leaves the headers untouched. -/
def tokenHeaders (headers0 : Headers) (csrf : Option (List Char)) : Headers :=
  match csrf with
  | some t =>
    if t = [] then headers0
    else setHeader headers0 (chars (r"X-CSRF-Token")) t
  | none => headers0

/-- The tail of `main` after the token step (source lines 127-128): download
with the session's current headers, extract, and keep the headers for the
rest of the run (they are returned next to the resulting filesystem so that
theorems can speak about them). -/
def mainAfterToken (args : Args) (zipGet : Headers → HttpBytesResponse)
    (parseZip : List Nat → List ZipEntry) (fs : FS) (headers1 : Headers) :
    Except (Err ⊕ FsErr) (FS × Headers) :=
  match download_zip (_normalize_base_url args.base_url) args.project_id
      (zipGet headers1) with
  | .error e => .error (.inl e)
  | .ok zip_bytes =>
    match extract_zip (parseZip zip_bytes) args.output_dir true fs with
    | .error er => .error (.inr er)
    | .ok fs2 => .ok (fs2, headers1)

/-- `main` (source lines 99-129), with the network and the zip container
parsing supplied as oracles: `pageGet` and `zipGet` map the headers the
session carries at the moment of the request to the corresponding response,
and `parseZip` maps the downloaded bytes to the archive's entry list.  The
session-header mutation of line 125 becomes rebinding (`tokenHeaders`).
Fallible steps propagate their errors unhandled, as in the source. -/
def main (args : Args) (pageGet : Headers → HttpTextResponse)
    (zipGet : Headers → HttpBytesResponse)
    (parseZip : List Nat → List ZipEntry) (fs : FS) :
    Except (Err ⊕ FsErr) (FS × Headers) :=
  match get_csrf_token (_normalize_base_url args.base_url) args.project_id
      (pageGet (initialHeaders args)) with
  | .error e => .error (.inl e)
  | .ok csrf =>
    mainAfterToken args zipGet parseZip fs
      (tokenHeaders (initialHeaders args) csrf)

/-! ### Write-list view of extraction

Every filesystem operation `extract_zip` performs is an overwrite of a
determined region with determined values, guarded only by a type check
(no directory over a file, no file over a directory).  The definitions
below compute, per entry, the ordered list of `(path, node)` writes; the
lemmas further down characterize the extraction as the application of this
list, which yields the idempotence result. -/

/-- Extract the payload of an `.ok`, with a default for `.error`. -/
def okOr {ε α : Type} (d : α) : Except ε α → α
  | .ok a => a
  | .error _ => d

/-- Apply a list of writes in order. -/
def applyW (ws : List (FsPath × Node)) (fs : FS) : FS :=
  ws.foldl (fun f pn => setFS f pn.1 pn.2) fs

/-- The value of the last write at a given path, if any. -/
def lastW (ws : List (FsPath × Node)) (p : FsPath) : Option Node :=
  ws.foldl (fun acc pn => if pn.1 = p then some pn.2 else acc) none

/-- The type of a node: `true` for regular files, `false` for directories. -/
def nodeTy : Node → Bool
  | .dir => false
  | .file _ => true

/-- May this write be performed on this existing entry?  Empty slots accept
anything; occupied slots only accept a node of the same type. -/
def tyOk : Option Node → Node → Bool
  | none, _ => true
  | some m, n => nodeTy m == nodeTy n

/-- All writes of the list are type-compatible with the filesystem. -/
def CompatB (fs : FS) (ws : List (FsPath × Node)) : Bool :=
  ws.all (fun pn => tyOk (fs pn.1) pn.2)

/-- No two writes of the list hit the same path with different types. -/
def ConsistB (ws : List (FsPath × Node)) : Bool :=
  ws.all (fun pn => ws.all
    (fun qm => pn.1 ≠ qm.1 || nodeTy pn.2 == nodeTy qm.2))

/-- The writes of `mkdirParents`: every prefix becomes a directory. -/
def dirWrites (p : FsPath) : List (FsPath × Node) :=
  (prefixesIncl p).map (fun q => (q, Node.dir))

/-- The writes of one `flattenStep`. -/
def flattenWrites (output_dir : FsPath) (root : List Char) (e : ZipEntry) :
    List (FsPath × Node) :=
  if (root ++ ['/']).isPrefixOf e.filename then
    if pyRstripSlash (e.filename.drop (root.length + 1)) = [] then []
    else
      if e.isDirEntry then
        dirWrites
          (pathlibJoin output_dir
            (pyRstripSlash (e.filename.drop (root.length + 1))))
      else
        dirWrites
          (pathlibJoin output_dir
            (pyRstripSlash (e.filename.drop (root.length + 1)))).dropLast ++
        [(pathlibJoin output_dir
            (pyRstripSlash (e.filename.drop (root.length + 1))),
          Node.file e.content)]
  else []

/-- The writes of one `extractallStep`. -/
def extractallWrites (output_dir : FsPath) (e : ZipEntry) :
    List (FsPath × Node) :=
  if e.isDirEntry then
    dirWrites (output_dir ++ zipSanitizedSegs e.filename).dropLast ++
    dirWrites (output_dir ++ zipSanitizedSegs e.filename)
  else
    dirWrites (output_dir ++ zipSanitizedSegs e.filename).dropLast ++
    [(output_dir ++ zipSanitizedSegs e.filename, Node.file e.content)]

/-- One abstract operation of an `extract_zip` run: the initial
`output_dir.mkdir` or the processing of one entry. -/
inductive ExOp : Type
  | init
  | ent (e : ZipEntry)

/-- The extraction mode: `some root` for the flattening loop, `none` for
plain `extractall`. -/
abbrev ExMode : Type := Option (List Char)

/-- The step function of one abstract operation. -/
def stepM (m : ExMode) (output_dir : FsPath) (fs : FS) :
    ExOp → Except FsErr FS
  | .init => mkdirParents fs output_dir
  | .ent e =>
    match m with
    | some root => flattenStep output_dir root fs e
    | none => extractallStep output_dir fs e

/-- The writes of one abstract operation. -/
def wM (m : ExMode) (output_dir : FsPath) : ExOp → List (FsPath × Node)
  | .init => dirWrites output_dir
  | .ent e =>
    match m with
    | some root => flattenWrites output_dir root e
    | none => extractallWrites output_dir e

/-- Run a list of abstract operations in order. -/
def runOps (m : ExMode) (output_dir : FsPath) (fs : FS) :
    List ExOp → Except FsErr FS
  | [] => .ok fs
  | op :: ops =>
    match stepM m output_dir fs op with
    | .error er => .error er
    | .ok fs1 => runOps m output_dir fs1 ops

/-- The total write list of a list of abstract operations. -/
def wsOf (m : ExMode) (output_dir : FsPath) (ops : List ExOp) :
    List (FsPath × Node) :=
  (ops.map (wM m output_dir)).flatten

/-- The mode `extract_zip` selects for a given entry list. -/
def modeOf (zip_entries : List ZipEntry) (flatten_single_root : Bool) :
    ExMode :=
  if flatten_single_root then
    _single_root_dir (zip_entries.map (fun e => e.filename))
  else none

/-- The abstract operation list of an `extract_zip` run. -/
def opsOf (zip_entries : List ZipEntry) : List ExOp :=
  ExOp.init :: zip_entries.map ExOp.ent

/-! ### Concrete runs used by the example theorems -/

/-- The two-entry single-root archive of the round-trip example:
`proj/main.tex` with content `"X"` (byte 88) and the directory `proj/sub/`. -/
def exampleEntries : List ZipEntry :=
  [⟨chars (r"proj/main.tex"), [88]⟩, ⟨chars (r"proj/sub/"), []⟩]

/-- The filesystem produced by extracting the example archive into `D`
(with flattening) starting from the empty filesystem. -/
def exampleResult : FS :=
  okOr emptyFS (extract_zip exampleEntries [chars (r"D")] true emptyFS)

/-- An archive holding a bare file entry `proj` (no trailing slash) next to
`proj/a.tex`, so that the common root `proj` is detected while the bare
entry is not prefixed by `proj/`. -/
def bareRootEntries : List ZipEntry :=
  [⟨chars (r"proj"), [99]⟩, ⟨chars (r"proj/a.tex"), [88]⟩]

/-- The filesystem produced by flattened extraction of `bareRootEntries`
into the destination root from the empty filesystem. -/
def bareRootResult : FS :=
  okOr emptyFS (extract_zip bareRootEntries [] true emptyFS)

/-- Arguments of a concrete end-to-end mock run. -/
def c9args : Args :=
  ⟨chars (r"p1"), chars (r"abc"), chars (r"http://o"), []⟩

/-- Mock page transport: always answer 200 with a token tag. -/
def c9pageGet : Headers → HttpTextResponse :=
  fun _ => ⟨200, csrfLit ++ chars (r"tok1") ++ ['"', '>']⟩

/-- Mock download transport: always answer 200 with a zip body. -/
def c9zipGet : Headers → HttpBytesResponse :=
  fun _ => ⟨200, chars (r"application/zip"), [0x50, 0x4B]⟩

/-- Mock zip parsing: the mock body holds no entries. -/
def c9parse : List Nat → List ZipEntry :=
  fun _ => []

/-- The result of the mock run (filesystem and final session headers). -/
def c9result : FS × Headers :=
  okOr (emptyFS, []) (main c9args c9pageGet c9zipGet c9parse emptyFS)

/-! ### General helper lemmas -/

theorem isPrefixOf_eq_true_iff (l₁ l₂ : List Char) :
    l₁.isPrefixOf l₂ = true ↔ ∃ t, l₁ ++ t = l₂ := by
  induction l₁ generalizing l₂ with
  | nil => simp [List.isPrefixOf]
  | cons a l ih =>
    cases l₂ with
    | nil => simp [List.isPrefixOf]
    | cons b l₂ =>
      simp only [List.isPrefixOf, Bool.and_eq_true, beq_iff_eq, ih,
        List.cons_append, List.cons.injEq]
      constructor
      · rintro ⟨rfl, t, rfl⟩; exact ⟨t, rfl, rfl⟩
      · rintro ⟨t, rfl, rfl⟩; exact ⟨rfl, t, rfl⟩

theorem head?_dropWhile_false {p : Char → Bool} {l : List Char} {c : Char}
    (h : (l.dropWhile p).head? = some c) : p c = false := by
  induction l with
  | nil => simp [List.dropWhile] at h
  | cons a l ih =>
    by_cases hpa : p a = true
    · rw [List.dropWhile_cons_of_pos hpa] at h
      exact ih h
    · rw [List.dropWhile_cons_of_neg hpa] at h
      simp only [List.head?_cons, Option.some.injEq] at h
      subst h
      exact Bool.eq_false_iff.2 hpa

theorem dropWhile_twice (p : Char → Bool) (l : List Char) :
    (l.dropWhile p).dropWhile p = l.dropWhile p := by
  induction l with
  | nil => simp
  | cons a l ih =>
    by_cases hpa : p a = true
    · rw [List.dropWhile_cons_of_pos hpa, ih]
    · rw [List.dropWhile_cons_of_neg hpa, List.dropWhile_cons_of_neg hpa]

theorem dedup_eq_singleton_iff {α : Type} [DecidableEq α]
    (l : List α) (r : α) :
    l.dedup = [r] ↔ r ∈ l ∧ ∀ x ∈ l, x = r := by
  induction l with
  | nil => simp
  | cons a l ih =>
    by_cases h : a ∈ l
    · rw [List.dedup_cons_of_mem h, ih]
      constructor
      · rintro ⟨hr, hall⟩
        refine ⟨List.mem_cons_of_mem _ hr, ?_⟩
        intro x hx
        rcases List.mem_cons.1 hx with rfl | hx'
        · exact hall x h
        · exact hall x hx'
      · rintro ⟨hr, hall⟩
        refine ⟨?_, fun x hx => hall x (List.mem_cons_of_mem _ hx)⟩
        rcases List.mem_cons.1 hr with rfl | hr'
        · exact h
        · exact hr'
    · rw [List.dedup_cons_of_not_mem h]
      constructor
      · intro he
        have h2 : a = r ∧ l.dedup = [] := by
          simpa only [List.cons.injEq] using he
        obtain ⟨rfl, hnil⟩ := h2
        have : l = [] := (List.dedup_eq_nil l).1 hnil
        subst this
        simp
      · rintro ⟨hr, hall⟩
        have ha : a = r := hall a (List.mem_cons_self a l)
        have hl : l = [] := by
          cases l with
          | nil => rfl
          | cons b l' =>
            have hb : b = r := hall b (by simp)
            exact absurd (show a ∈ b :: l' by simp [ha, hb]) h
        subst hl
        simp [ha, List.dedup]

/-! ### Claim C8 — base-URL normalization -/

/-- Claim C8: for every base URL with one or more trailing slashes,
`_normalize_base_url` removes them all (the result has no trailing slash),
and `_normalize_base_url` is idempotent. -/
theorem claimC8_theorem :
    (∀ u : List Char, u.getLast? = some '/' →
      (_normalize_base_url u).getLast? ≠ some '/') ∧
    (∀ u : List Char,
      _normalize_base_url (_normalize_base_url u) = _normalize_base_url u) := by
  constructor
  · intro u _ hcon
    rw [_normalize_base_url, pyRstripSlash, List.getLast?_reverse] at hcon
    have := head?_dropWhile_false hcon
    simp at this
  · intro u
    simp only [_normalize_base_url, pyRstripSlash, List.reverse_reverse]
    rw [dropWhile_twice]

/-- Witness for C8 at the concrete URL `"https://example.com//"`. -/
theorem claimC8_witness :
    (chars (r"https://example.com//")).getLast? = some '/' ∧
    (_normalize_base_url (chars (r"https://example.com//"))).getLast? ≠
      some '/' :=
  ⟨by decide, claimC8_theorem.1 _ (by decide)⟩

/-! ### Claim C4 — cookie header construction -/

/-- Counterexample to C4 as stated: the cookie `"overleaf.sid=x "` (with a
trailing space) does case-insensitively start with the key prefix, yet
`_cookie_header` does not return it verbatim — the code strips it first. -/
theorem claimC4_counterexample :
    cookieKey.isPrefixOf (pyLower (chars (r"overleaf.sid=x "))) = true ∧
    _cookie_header (chars (r"overleaf.sid=x ")) ≠
      chars (r"overleaf.sid=x ") := by
  exact ⟨by decide, by decide⟩

/-- Claim C4 (amended): `_cookie_header C` equals the *stripped* cookie when
the stripped cookie case-insensitively starts with `"overleaf.sid="`, and
otherwise equals `"overleaf.sid="` followed by the stripped cookie. -/
theorem claimC4_theorem (C : List Char) :
    ((∃ t, cookieKey ++ t = pyLower (pyStrip C)) →
      _cookie_header C = pyStrip C) ∧
    ((¬ ∃ t, cookieKey ++ t = pyLower (pyStrip C)) →
      _cookie_header C = cookieKey ++ pyStrip C) := by
  constructor
  · intro h
    rw [_cookie_header, if_pos ((isPrefixOf_eq_true_iff _ _).2 h)]
  · intro h
    rw [_cookie_header, if_neg]
    intro hb
    exact h ((isPrefixOf_eq_true_iff _ _).1 hb)

/-- Witness for C4 at `"  s%3Aabc  "` (no key: the key is prepended to the
trimmed value) and `" OVERLEAF.SID=x"` (upper-case key: the trimmed value is
returned unchanged). -/
theorem claimC4_witness :
    _cookie_header (chars (r"  s%3Aabc  ")) =
      cookieKey ++ pyStrip (chars (r"  s%3Aabc  ")) ∧
    _cookie_header (chars (r" OVERLEAF.SID=x")) =
      pyStrip (chars (r" OVERLEAF.SID=x")) :=
  ⟨(claimC4_theorem _).2 (by
      rintro ⟨t, ht⟩
      have hlen := congrArg List.length ht
      simp only [List.length_append] at hlen
      have h1 : cookieKey.length = 13 := by decide
      have h2 : (pyLower (pyStrip (chars (r"  s%3Aabc  ")))).length = 7 := by
        decide
      omega),
   (claimC4_theorem _).1 ⟨chars (r"x"), by decide⟩⟩

/-! ### Claim C1 — common-root detection -/

/-- Counterexample to C1 as stated: for the single entry `"proj/"` the code
detects the root `"proj"` although no entry path is strictly longer than
`"proj/"` (the root contains nothing). -/
theorem claimC1_counterexample :
    _single_root_dir [chars (r"proj/")] = some (chars (r"proj")) ∧
    ¬ ∃ n ∈ [chars (r"proj/")],
        (chars (r"proj") ++ ['/']).isPrefixOf n = true ∧
        (chars (r"proj") ++ ['/']).length < n.length :=
  ⟨by decide, by decide⟩

theorem single_root_dir_of_dedup_nil {names : List (List Char)}
    (hd : (names.filterMap firstSegment).dedup = []) :
    _single_root_dir names = none := by
  rw [_single_root_dir, hd]

theorem single_root_dir_of_dedup_singleton {names : List (List Char)}
    {single : List Char}
    (hd : (names.filterMap firstSegment).dedup = [single]) :
    _single_root_dir names =
      (if names.any (fun n => (single ++ ['/']).isPrefixOf n) then some single
       else none) := by
  rw [_single_root_dir, hd]

theorem single_root_dir_of_dedup_big {names : List (List Char)}
    {b c : List Char} {bs : List (List Char)}
    (hd : (names.filterMap firstSegment).dedup = b :: c :: bs) :
    _single_root_dir names = none := by
  rw [_single_root_dir, hd]

/-- Claim C1 (amended): `_single_root_dir` returns `some r` iff the first
segments of all entries with a non-empty segment list exist and all equal
`r`, at least one such entry exists, and at least one entry has `r ++ "/"`
as a prefix (possibly the bare directory marker `r ++ "/"` itself — not
necessarily a strictly longer path).  The claim's three examples hold. -/
theorem claimC1_theorem :
    (∀ (names : List (List Char)) (r : List Char),
      _single_root_dir names = some r ↔
        ((∃ n ∈ names, firstSegment n = some r) ∧
         (∀ n ∈ names, ∀ s, firstSegment n = some s → s = r) ∧
         (∃ n ∈ names, ∃ t, r ++ '/' :: t = n))) ∧
    _single_root_dir [chars (r"proj/a.tex"), chars (r"proj/sub/b.tex")] =
      some (chars (r"proj")) ∧
    _single_root_dir [chars (r"a.tex"), chars (r"b.tex")] = none ∧
    _single_root_dir [chars (r"proj/"), chars (r"other/")] = none := by
  refine ⟨?_, by decide, by decide, by decide⟩
  intro names r
  have hmem : ∀ x : List Char, x ∈ names.filterMap firstSegment ↔
      ∃ n ∈ names, firstSegment n = some x := fun x => List.mem_filterMap
  have hany : (names.any (fun n => (r ++ ['/']).isPrefixOf n) = true) ↔
      ∃ n ∈ names, ∃ t, r ++ '/' :: t = n := by
    rw [List.any_eq_true]
    constructor
    · rintro ⟨n, hn, hb⟩
      obtain ⟨t, ht⟩ := (isPrefixOf_eq_true_iff _ _).1 hb
      exact ⟨n, hn, t, by simpa using ht⟩
    · rintro ⟨n, hn, t, ht⟩
      exact ⟨n, hn, (isPrefixOf_eq_true_iff _ _).2 ⟨t, by simpa using ht⟩⟩
  rcases hd : (names.filterMap firstSegment).dedup with _ | ⟨single, rest⟩
  · rw [single_root_dir_of_dedup_nil hd]
    simp only [List.dedup_eq_nil] at hd
    constructor
    · intro h; cases h
    · rintro ⟨⟨n, hn, hf⟩, -, -⟩
      have : r ∈ names.filterMap firstSegment := (hmem r).2 ⟨n, hn, hf⟩
      rw [hd] at this
      cases this
  · cases rest with
    | nil =>
      rw [single_root_dir_of_dedup_singleton hd]
      have hsingle := (dedup_eq_singleton_iff (names.filterMap firstSegment)
        single).1 hd
      by_cases hany' : names.any (fun n => (r ++ ['/']).isPrefixOf n) = true
      · constructor
        · intro h
          have hsr : single = r := by
            by_cases hb : (names.any
                (fun n => (single ++ ['/']).isPrefixOf n)) = true
            · rw [if_pos hb] at h
              exact Option.some.inj h
            · rw [if_neg hb] at h
              cases h
          subst hsr
          obtain ⟨n, hn, hf⟩ := (hmem single).1 hsingle.1
          exact ⟨⟨n, hn, hf⟩,
            fun n hn s hf => hsingle.2 s ((hmem s).2 ⟨n, hn, hf⟩),
            hany.1 hany'⟩
        · rintro ⟨⟨n, hn, hf⟩, -, -⟩
          have hsr : single = r :=
            (hsingle.2 r ((hmem r).2 ⟨n, hn, hf⟩)).symm
          subst hsr
          rw [if_pos hany']
      · constructor
        · intro h
          by_cases hb : (names.any
              (fun n => (single ++ ['/']).isPrefixOf n)) = true
          · rw [if_pos hb] at h
            have hsr : single = r := Option.some.inj h
            subst hsr
            exact absurd hb hany'
          · rw [if_neg hb] at h
            cases h
        · rintro ⟨⟨n, hn, hf⟩, -, hpre⟩
          have hsr : single = r :=
            (hsingle.2 r ((hmem r).2 ⟨n, hn, hf⟩)).symm
          subst hsr
          exact absurd (hany.2 hpre) hany'
    | cons b bs =>
      rw [single_root_dir_of_dedup_big hd]
      constructor
      · intro h; cases h
      · rintro ⟨⟨n, hn, hf⟩, hall, -⟩
        have hone : (names.filterMap firstSegment).dedup = [r] := by
          rw [dedup_eq_singleton_iff]
          refine ⟨(hmem r).2 ⟨n, hn, hf⟩, ?_⟩
          intro x hx
          obtain ⟨m, hm, hfm⟩ := (hmem x).1 hx
          exact hall m hm x hfm
        rw [hd] at hone
        simp at hone

/-- Witness for C1's amended equivalence at a concrete entry list. -/
theorem claimC1_witness :
    _single_root_dir [chars (r"proj/a.tex"), chars (r"proj/sub/")] =
      some (chars (r"proj")) :=
  (claimC1_theorem.1 _ _).2
    ⟨⟨chars (r"proj/a.tex"), by decide, by decide⟩,
     by decide,
     ⟨chars (r"proj/a.tex"), by decide, chars (r"a.tex"), by decide⟩⟩

/-! ### Claim C5 — token extraction -/

theorem takeWhile_quote_split {l : List Char} (h : '"' ∈ l) :
    ∃ post, l = l.takeWhile (fun c => c ≠ '"') ++ '"' :: post := by
  induction l with
  | nil => cases h
  | cons a l ih =>
    by_cases ha : a = '"'
    · subst ha
      refine ⟨l, ?_⟩
      rw [List.takeWhile_cons_of_neg (by simp)]
      simp
    · have h' : '"' ∈ l := by
        rcases List.mem_cons.1 h with he | h'
        · exact absurd he.symm ha
        · exact h'
      obtain ⟨post, hp⟩ := ih h'
      refine ⟨post, ?_⟩
      rw [List.takeWhile_cons_of_pos (by simpa using ha)]
      simpa using hp

theorem csrfTryMatch_sound {s v : List Char} (h : csrfTryMatch s = some v) :
    ('"' ∉ v) ∧ ∃ post, s = csrfLit ++ v ++ '"' :: post := by
  rw [csrfTryMatch] at h
  by_cases hpre : csrfLit.isPrefixOf s = true
  · rw [if_pos hpre] at h
    by_cases hq : '"' ∈ s.drop csrfLit.length
    · rw [if_pos hq] at h
      have hv : v = (s.drop csrfLit.length).takeWhile (fun c => c ≠ '"') :=
        (Option.some.inj h).symm
      obtain ⟨t, ht⟩ := (isPrefixOf_eq_true_iff _ _).1 hpre
      have hrest : s.drop csrfLit.length = t := by
        rw [← ht, List.drop_left]
      obtain ⟨post, hsplit⟩ := takeWhile_quote_split hq
      refine ⟨?_, post, ?_⟩
      · intro hmem
        rw [hv] at hmem
        have := List.mem_takeWhile_imp hmem
        simp at this
      · rw [← ht]
        have hteq : t = v ++ '"' :: post := by
          rw [← hrest, hsplit, ← hv]
        rw [hteq, List.append_assoc]
    · rw [if_neg hq] at h
      cases h
  · rw [if_neg hpre] at h
    cases h

theorem reSearchCsrf_sound {body v : List Char}
    (h : reSearchCsrf body = some v) :
    ('"' ∉ v) ∧ ∃ pre post, body = pre ++ csrfLit ++ v ++ '"' :: post := by
  induction body with
  | nil => cases h
  | cons c cs ih =>
    rw [reSearchCsrf] at h
    cases htm : csrfTryMatch (c :: cs) with
    | some w =>
      rw [htm] at h
      have hw : w = v := Option.some.inj h
      subst hw
      obtain ⟨hnv, post, hsplit⟩ := csrfTryMatch_sound htm
      exact ⟨hnv, [], post, by simpa using hsplit⟩
    | none =>
      rw [htm] at h
      obtain ⟨hnv, pre, post, hsplit⟩ := ih h
      exact ⟨hnv, c :: pre, post, by simp [hsplit]⟩

theorem reSearchCsrf_cons (c : Char) (cs : List Char) :
    reSearchCsrf (c :: cs) =
      (match csrfTryMatch (c :: cs) with
        | some v => some v
        | none => reSearchCsrf cs) :=
  rfl

theorem reSearchCsrf_complete (pre v post : List Char) (_hv : '"' ∉ v) :
    ∃ w, reSearchCsrf (pre ++ csrfLit ++ v ++ '"' :: post) = some w := by
  induction pre with
  | nil =>
    have hpre : csrfLit.isPrefixOf (csrfLit ++ v ++ '"' :: post) = true :=
      (isPrefixOf_eq_true_iff _ _).2 ⟨v ++ '"' :: post, by simp⟩
    have hrest : (csrfLit ++ v ++ '"' :: post).drop csrfLit.length =
        v ++ '"' :: post :=
      List.drop_left _ _
    have hq : '"' ∈ (csrfLit ++ v ++ '"' :: post).drop csrfLit.length := by
      rw [hrest]; simp
    have htm : csrfTryMatch (csrfLit ++ v ++ '"' :: post) =
        some (((csrfLit ++ v ++ '"' :: post).drop
          csrfLit.length).takeWhile (fun c => c ≠ '"')) := by
      rw [csrfTryMatch, if_pos hpre, if_pos hq]
    cases hb : csrfLit ++ v ++ '"' :: post with
    | nil =>
      have := congrArg List.length hb
      simp [csrfLit, chars] at this
    | cons c cs =>
      refine ⟨((csrfLit ++ v ++ '"' :: post).drop
          csrfLit.length).takeWhile (fun c => c ≠ '"'), ?_⟩
      simp only [List.nil_append]
      rw [hb, reSearchCsrf_cons, ← hb, htm]
  | cons c pre ih =>
    rw [List.cons_append, List.cons_append, List.cons_append,
      reSearchCsrf_cons]
    cases htm : csrfTryMatch
        (c :: (pre ++ csrfLit ++ v ++ '"' :: post)) with
    | some w => exact ⟨w, rfl⟩
    | none =>
      obtain ⟨w, hw⟩ := ih
      exact ⟨w, hw⟩

/-- Counterexample to C5 as stated: a body holding
`<meta name="ol-csrfToken" content="abc"` with the closing quote but with no
`>` afterwards contains no marker of the exact claimed shape
`<meta name="ol-csrfToken" content="VALUE">`, yet `get_csrf_token` returns
`"abc"` rather than the no-token result — the regex does not require the
closing `>`. -/
theorem claimC5_counterexample :
    get_csrf_token (chars (r"http://o")) (chars (r"p"))
        ⟨200, csrfLit ++ chars (r"abc") ++ ['"']⟩ =
      .ok (some (chars (r"abc"))) ∧
    ¬ ∃ v : List Char, '"' ∉ v ∧ ∃ pre post,
        csrfLit ++ chars (r"abc") ++ ['"'] =
          pre ++ (csrfLit ++ v ++ ['"', '>']) ++ post := by
  constructor
  · rfl
  · rintro ⟨v, -, pre, post, heq⟩
    have hgt : '>' ∈ csrfLit ++ chars (r"abc") ++ ['"'] := by
      rw [heq]
      simp
    exact absurd hgt (by decide)

/-- Claim C5 (amended): on a success-status response, `get_csrf_token`
returns `some v` only if the body contains
`<meta name="ol-csrfToken" content="` followed by the quote-free `v` and a
closing quote (the trailing `>` of the claimed marker shape is *not*
required), returns the no-token result `none` exactly when the body
contains no such occurrence, and in particular a body containing the
claim's example marker with value `abc123` yields `abc123`. -/
theorem claimC5_theorem :
    (∀ base pid : List Char, ∀ rsp : HttpTextResponse, ∀ v : List Char,
      rsp.status < 400 →
      get_csrf_token base pid rsp = .ok (some v) →
      ('"' ∉ v) ∧ ∃ pre post, rsp.text = pre ++ csrfLit ++ v ++ '"' :: post) ∧
    (∀ base pid : List Char, ∀ rsp : HttpTextResponse,
      rsp.status < 400 →
      get_csrf_token base pid rsp = .ok none →
      ∀ v pre post : List Char, '"' ∉ v →
        rsp.text ≠ pre ++ csrfLit ++ v ++ '"' :: post) ∧
    (∀ base pid : List Char, ∀ status : Nat, status < 400 →
      get_csrf_token base pid
          ⟨status, csrfLit ++ chars (r"abc123") ++ ['"', '>']⟩ =
        .ok (some (chars (r"abc123")))) := by
  have hok : ∀ base pid : List Char, ∀ rsp : HttpTextResponse,
      rsp.status < 400 →
      get_csrf_token base pid rsp = .ok (reSearchCsrf rsp.text) := by
    intro base pid rsp hst
    rw [get_csrf_token, raise_for_status, if_neg (by omega)]
  refine ⟨?_, ?_, ?_⟩
  · intro base pid rsp v hst h
    rw [hok base pid rsp hst] at h
    exact reSearchCsrf_sound (Except.ok.inj h)
  · intro base pid rsp hst h v pre post hv htext
    rw [hok base pid rsp hst] at h
    have hnone : reSearchCsrf rsp.text = none := Except.ok.inj h
    obtain ⟨w, hw⟩ := reSearchCsrf_complete pre v post hv
    rw [← htext] at hw
    rw [hnone] at hw
    cases hw
  · intro base pid status hst
    rw [hok base pid _ hst]
    rfl

/-- Witness for C5 at the claim's own example body, with status 200. -/
theorem claimC5_witness :
    get_csrf_token (chars (r"http://o")) (chars (r"p"))
        ⟨200, csrfLit ++ chars (r"abc123") ++ ['"', '>']⟩ =
      .ok (some (chars (r"abc123"))) :=
  claimC5_theorem.2.2 _ _ 200 (by decide)

/-! ### Claim C6 — remote failure propagation -/

/-- Counterexample to C6 as stated: status 304 is not a success (non-2xx),
yet neither `get_csrf_token` nor `download_zip` raises — `raise_for_status`
only raises for 4xx/5xx, so a 304 response flows straight through. -/
theorem claimC6_counterexample :
    (¬ (200 ≤ 304 ∧ 304 < 300)) ∧
    get_csrf_token (chars (r"http://o")) (chars (r"p")) ⟨304, []⟩ =
      .ok none ∧
    download_zip (chars (r"http://o")) (chars (r"p"))
        ⟨304, [], [0x50, 0x4B]⟩ =
      .ok [0x50, 0x4B] :=
  ⟨by omega, rfl, rfl⟩

/-- Claim C6 (amended): both fetches fail with the remote error — carrying
the offending URL and status — iff the status is a 4xx or 5xx (not: any
non-2xx), and such an error from the page fetch propagates uncaught through
`main`. -/
theorem claimC6_theorem :
    (∀ base pid : List Char, ∀ rsp : HttpTextResponse,
      (get_csrf_token base pid rsp =
        .error (.remoteError (projectUrl base pid) rsp.status)) ↔
      (400 ≤ rsp.status ∧ rsp.status < 600)) ∧
    (∀ base pid : List Char, ∀ rsp : HttpBytesResponse,
      (download_zip base pid rsp =
        .error (.remoteError (zipUrl base pid) rsp.status)) ↔
      (400 ≤ rsp.status ∧ rsp.status < 600)) ∧
    (∀ args pageGet zipGet parseZip fs,
      400 ≤ (pageGet (initialHeaders args)).status →
      (pageGet (initialHeaders args)).status < 600 →
      main args pageGet zipGet parseZip fs =
        .error (.inl (.remoteError
          (projectUrl (_normalize_base_url args.base_url) args.project_id)
          (pageGet (initialHeaders args)).status))) := by
  refine ⟨?_, ?_, ?_⟩
  · intro base pid rsp
    constructor
    · intro h
      by_contra hc
      rw [get_csrf_token, raise_for_status, if_neg hc] at h
      cases h
    · intro hc
      rw [get_csrf_token, raise_for_status, if_pos hc]
  · intro base pid rsp
    constructor
    · intro h
      by_contra hc
      rw [download_zip, raise_for_status, if_neg hc] at h
      by_cases hm : rsp.content.take 2 = zipMagic
      · rw [if_pos hm] at h; cases h
      · rw [if_neg hm] at h
        simp only [Except.error.injEq] at h
        cases h
    · intro hc
      rw [download_zip, raise_for_status, if_pos hc]
  · intro args pageGet zipGet parseZip fs h4 h6
    rw [main]
    have : get_csrf_token (_normalize_base_url args.base_url)
        args.project_id (pageGet (initialHeaders args)) =
        .error (.remoteError
          (projectUrl (_normalize_base_url args.base_url) args.project_id)
          (pageGet (initialHeaders args)).status) := by
      rw [get_csrf_token, raise_for_status, if_pos ⟨h4, h6⟩]
    rw [this]

/-- Witness for C6's propagation clause at a concrete 503 mock. -/
theorem claimC6_witness :
    main ⟨chars (r"p"), chars (r"c"), chars (r"http://o"), []⟩
      (fun _ => ⟨503, []⟩) (fun _ => ⟨200, [], []⟩) (fun _ => []) emptyFS =
      .error (.inl (.remoteError
        (projectUrl (_normalize_base_url (chars (r"http://o")))
          (chars (r"p"))) 503)) :=
  claimC6_theorem.2.2 _ _ _ _ _ (by decide) (by decide)

/-! ### Claim C2 — archive validation -/

/-- Claim C2: on a success-status response, `download_zip` returns the raw
body unmodified when it starts with the two magic bytes `PK`, and otherwise
raises the format error carrying the declared content type and the preview
of at most the first 200 body bytes decoded with replacement of invalid
sequences. -/
theorem claimC2_theorem (base pid : List Char) (rsp : HttpBytesResponse)
    (h2 : 200 ≤ rsp.status) (h3 : rsp.status < 300) :
    (rsp.content.take 2 = zipMagic →
      download_zip base pid rsp = .ok rsp.content) ∧
    (rsp.content.take 2 ≠ zipMagic →
      download_zip base pid rsp =
        .error (.formatError rsp.contentType
          (utf8DecodeReplace (rsp.content.take 200)))) ∧
    (rsp.content.take 200).length ≤ 200 := by
  have hraise : raise_for_status (zipUrl base pid) rsp.status = .ok () := by
    rw [raise_for_status, if_neg (by omega)]
  refine ⟨?_, ?_, ?_⟩
  · intro hm
    rw [download_zip, hraise, if_pos hm]
  · intro hm
    rw [download_zip, hraise, if_neg hm]
  · exact List.length_take_le 200 rsp.content

/-- Witness for C2: an HTML error page is rejected with its content type
and decoded preview, and a real zip body is returned as-is. -/
theorem claimC2_witness :
    download_zip (chars (r"http://o")) (chars (r"p"))
        ⟨200, chars (r"text/html"), [60, 104, 116, 109, 108, 62]⟩ =
      .error (.formatError (chars (r"text/html"))
        (utf8DecodeReplace ([60, 104, 116, 109, 108, 62].take 200))) ∧
    download_zip (chars (r"http://o")) (chars (r"p"))
        ⟨200, chars (r"application/zip"), [80, 75, 3, 4]⟩ =
      .ok [80, 75, 3, 4] :=
  ⟨(claimC2_theorem _ _ _ (by decide) (by decide)).2.1 (by decide),
   (claimC2_theorem _ _ _ (by decide) (by decide)).1 (by decide)⟩

/-! ### Lemmas about the write-list machinery -/

theorem setFS_self (fs : FS) (p : FsPath) (n : Node) : setFS fs p n p = some n := by
  simp [setFS]

theorem setFS_other (fs : FS) (p : FsPath) (n : Node) {q : FsPath}
    (h : q ≠ p) : setFS fs p n q = fs q := by
  simp [setFS, h]

theorem applyW_cons (pn : FsPath × Node) (ws : List (FsPath × Node))
    (fs : FS) : applyW (pn :: ws) fs = applyW ws (setFS fs pn.1 pn.2) :=
  rfl

theorem applyW_append (w1 w2 : List (FsPath × Node)) (fs : FS) :
    applyW (w1 ++ w2) fs = applyW w2 (applyW w1 fs) := by
  simp [applyW, List.foldl_append]

theorem lastW_acc (ws : List (FsPath × Node)) (p : FsPath)
    (a : Option Node) :
    ws.foldl (fun acc pn => if pn.1 = p then some pn.2 else acc) a =
      (match lastW ws p with
        | some n => some n
        | none => a) := by
  induction ws generalizing a with
  | nil => simp [lastW]
  | cons qm ws ih =>
    show ws.foldl _ (if qm.1 = p then some qm.2 else a) = _
    rw [ih]
    show _ = (match ws.foldl _ (if qm.1 = p then some qm.2 else none) with
      | some n => some n
      | none => a)
    rw [ih]
    cases lastW ws p with
    | some n => rfl
    | none =>
      by_cases hq : qm.1 = p
      · simp [hq]
      · simp [hq]

theorem lastW_cons (qm : FsPath × Node) (ws : List (FsPath × Node))
    (p : FsPath) :
    lastW (qm :: ws) p =
      (match lastW ws p with
        | some n => some n
        | none => if qm.1 = p then some qm.2 else none) := by
  show ws.foldl _ (if qm.1 = p then some qm.2 else none) = _
  rw [lastW_acc]

theorem applyW_apply (ws : List (FsPath × Node)) (fs : FS) (p : FsPath) :
    applyW ws fs p =
      (match lastW ws p with
        | some n => some n
        | none => fs p) := by
  induction ws generalizing fs with
  | nil => simp [applyW, lastW]
  | cons pn ws ih =>
    rw [applyW_cons, ih, lastW_cons]
    cases lastW ws p with
    | some n => rfl
    | none =>
      by_cases hq : pn.1 = p
      · subst hq
        simp [setFS_self]
      · rw [setFS_other fs pn.1 pn.2 (fun he => hq he.symm)]
        simp [hq]

theorem lastW_mem {ws : List (FsPath × Node)} {p : FsPath} {n : Node}
    (h : lastW ws p = some n) : (p, n) ∈ ws := by
  induction ws with
  | nil => cases h
  | cons qm ws ih =>
    rw [lastW_cons] at h
    cases hl : lastW ws p with
    | some n' =>
      rw [hl] at h
      have : n' = n := Option.some.inj h
      subst this
      exact List.mem_cons_of_mem _ (ih hl)
    | none =>
      rw [hl] at h
      by_cases hq : qm.1 = p
      · rw [if_pos hq] at h
        have : qm.2 = n := Option.some.inj h
        have hqm : qm = (p, n) := by
          cases qm
          simp_all
        rw [← hqm]
        exact List.mem_cons_self _ _
      · rw [if_neg hq] at h
        cases h

theorem lastW_isSome_of_mem {ws : List (FsPath × Node)} {p : FsPath}
    {n : Node} (h : (p, n) ∈ ws) : ∃ n', lastW ws p = some n' := by
  induction ws with
  | nil => cases h
  | cons qm ws ih =>
    rw [lastW_cons]
    cases hl : lastW ws p with
    | some n' => exact ⟨n', rfl⟩
    | none =>
      rcases List.mem_cons.1 h with he | hm
      · refine ⟨qm.2, ?_⟩
        rw [if_pos (by rw [← he])]
      · obtain ⟨n', hn'⟩ := ih hm
        rw [hn'] at hl
        cases hl

theorem applyW_idem (ws : List (FsPath × Node)) (fs : FS) :
    applyW ws (applyW ws fs) = applyW ws fs := by
  funext p
  rw [applyW_apply, applyW_apply]
  cases hl : lastW ws p <;> rfl

theorem CompatB_iff (fs : FS) (ws : List (FsPath × Node)) :
    CompatB fs ws = true ↔ ∀ pn ∈ ws, tyOk (fs pn.1) pn.2 = true := by
  rw [CompatB, List.all_eq_true]

theorem ConsistB_iff (ws : List (FsPath × Node)) :
    ConsistB ws = true ↔
      ∀ pn ∈ ws, ∀ qm ∈ ws, pn.1 = qm.1 → nodeTy pn.2 = nodeTy qm.2 := by
  rw [ConsistB, List.all_eq_true]
  simp only [List.all_eq_true, Bool.or_eq_true, beq_iff_eq, ne_eq,
    decide_eq_true_eq]
  constructor
  · intro h pn hpn qm hqm heq
    rcases h pn hpn qm hqm with hne | hty
    · exact absurd heq hne
    · exact hty
  · intro h pn hpn qm hqm
    by_cases heq : pn.1 = qm.1
    · exact Or.inr (h pn hpn qm hqm heq)
    · exact Or.inl heq

theorem CompatB_append_iff (fs : FS) (w1 w2 : List (FsPath × Node)) :
    CompatB fs (w1 ++ w2) = true ↔
      CompatB fs w1 = true ∧ CompatB fs w2 = true := by
  rw [CompatB, CompatB, CompatB, List.all_append, Bool.and_eq_true]

theorem ConsistB_append_parts {w1 w2 : List (FsPath × Node)}
    (h : ConsistB (w1 ++ w2) = true) :
    ConsistB w1 = true ∧ ConsistB w2 = true := by
  rw [ConsistB_iff] at h
  constructor <;> rw [ConsistB_iff] <;> intro pn hpn qm hqm heq
  · exact h pn (List.mem_append_left _ hpn) qm (List.mem_append_left _ hqm)
      heq
  · exact h pn (List.mem_append_right _ hpn) qm (List.mem_append_right _ hqm)
      heq

theorem tyOk_of_ty_eq {o : Option Node} {n m : Node}
    (h : tyOk o n = true) (hty : nodeTy n = nodeTy m) : tyOk o m = true := by
  cases o with
  | none => rfl
  | some x =>
    simp only [tyOk, beq_iff_eq] at h ⊢
    rw [h, hty]

theorem compat_self {fs : FS} {ws : List (FsPath × Node)}
    (hc : ConsistB ws = true) (hf : CompatB fs ws = true) :
    CompatB (applyW ws fs) ws = true := by
  rw [CompatB_iff] at hf ⊢
  rw [ConsistB_iff] at hc
  intro pn hpn
  rw [applyW_apply]
  cases hl : lastW ws pn.1 with
  | none => exact hf pn hpn
  | some n' =>
    have hm : (pn.1, n') ∈ ws := lastW_mem hl
    have := hc (pn.1, n') hm pn hpn rfl
    simp only [tyOk, beq_iff_eq]
    exact this

theorem compat_applyW_of {fs : FS} {w1 w2 : List (FsPath × Node)}
    (hfull : CompatB fs (w1 ++ w2) = true)
    (hcons : ConsistB (w1 ++ w2) = true) :
    CompatB (applyW w1 fs) w2 = true := by
  rw [CompatB_iff]
  intro qm hqm
  rw [applyW_apply]
  cases hl : lastW w1 qm.1 with
  | none =>
    exact (CompatB_iff _ _).1 ((CompatB_append_iff fs w1 w2).1 hfull).2 qm hqm
  | some n' =>
    have hm : (qm.1, n') ∈ w1 := lastW_mem hl
    have hty := (ConsistB_iff _).1 hcons (qm.1, n')
      (List.mem_append_left _ hm) qm (List.mem_append_right _ hqm) rfl
    simp only [tyOk, beq_iff_eq]
    exact hty

theorem consist_append_of_ok {fs : FS} {w1 w2 : List (FsPath × Node)}
    (hc1 : ConsistB w1 = true) (hc2 : ConsistB w2 = true)
    (hcompat : CompatB (applyW w1 fs) w2 = true) :
    ConsistB (w1 ++ w2) = true := by
  rw [ConsistB_iff]
  have key : ∀ pn ∈ w1, ∀ qm ∈ w2, pn.1 = qm.1 →
      nodeTy pn.2 = nodeTy qm.2 := by
    intro pn hpn qm hqm heq
    obtain ⟨n', hn'⟩ := lastW_isSome_of_mem (heq ▸ hpn :
      (qm.1, pn.2) ∈ w1)
    have hmem' : (qm.1, n') ∈ w1 := lastW_mem hn'
    have h1 : nodeTy pn.2 = nodeTy n' :=
      (ConsistB_iff _).1 hc1 pn hpn (qm.1, n') hmem' heq
    have h2 : tyOk (applyW w1 fs qm.1) qm.2 = true :=
      (CompatB_iff _ _).1 hcompat qm hqm
    rw [applyW_apply, hn'] at h2
    simp only [tyOk, beq_iff_eq] at h2
    rw [h1, h2]
  intro pn hpn qm hqm heq
  rcases List.mem_append.1 hpn with h1 | h1 <;>
    rcases List.mem_append.1 hqm with h2 | h2
  · exact (ConsistB_iff _).1 hc1 pn h1 qm h2 heq
  · exact key pn h1 qm h2 heq
  · exact (key qm h2 pn h1 heq.symm).symm
  · exact (ConsistB_iff _).1 hc2 pn h1 qm h2 heq

/-! ### Characterization of the filesystem primitives -/

theorem tyOk_dir_iff (o : Option Node) :
    tyOk o Node.dir = true ↔ isFileNode o = false := by
  cases o with
  | none => simp [tyOk, isFileNode]
  | some m => cases m <;> simp [tyOk, isFileNode, nodeTy]

theorem tyOk_file_iff (o : Option Node) (c : List Nat) :
    tyOk o (Node.file c) = true ↔ isDirNode o = false := by
  cases o with
  | none => simp [tyOk, isDirNode]
  | some m => cases m <;> simp [tyOk, isDirNode, nodeTy]

theorem ensureDirs_cons (fs : FS) (q : FsPath) (qs : List FsPath) :
    ensureDirs fs (q :: qs) =
      (if isFileNode (fs q) then .error (.mkdirOnFile q)
       else ensureDirs (setFS fs q .dir) qs) :=
  rfl

theorem ensureDirs_ok {qs : List FsPath} {fs g : FS}
    (h : ensureDirs fs qs = .ok g) :
    (∀ q ∈ qs, isFileNode (fs q) = false) ∧
    g = applyW (qs.map (fun q => (q, Node.dir))) fs := by
  induction qs generalizing fs with
  | nil => exact ⟨by simp, (Except.ok.inj h).symm⟩
  | cons q qs ih =>
    rw [ensureDirs_cons] at h
    by_cases hq : isFileNode (fs q) = true
    · rw [if_pos hq] at h
      cases h
    · rw [if_neg hq] at h
      obtain ⟨hall, hg⟩ := ih h
      refine ⟨?_, ?_⟩
      · intro q' hq'
        rcases List.mem_cons.1 hq' with rfl | hm
        · exact Bool.eq_false_iff.2 hq
        · have hthis := hall q' hm
          by_cases he : q' = q
          · subst he
            exact Bool.eq_false_iff.2 hq
          · rw [setFS_other _ _ _ he] at hthis
            exact hthis
      · rw [List.map_cons, applyW_cons]
        exact hg

theorem ensureDirs_succ {qs : List FsPath} {fs : FS}
    (h : ∀ q ∈ qs, isFileNode (fs q) = false) :
    ensureDirs fs qs = .ok (applyW (qs.map (fun q => (q, Node.dir))) fs) := by
  induction qs generalizing fs with
  | nil => rfl
  | cons q qs ih =>
    rw [ensureDirs_cons,
      if_neg (by rw [h q (List.mem_cons_self _ _)]; simp),
      List.map_cons, applyW_cons]
    apply ih
    intro q' hq'
    by_cases he : q' = q
    · subst he
      rw [setFS_self]
      rfl
    · rw [setFS_other _ _ _ he]
      exact h q' (List.mem_cons_of_mem _ hq')

theorem CompatB_dirWrites_iff (fs : FS) (p : FsPath) :
    CompatB fs (dirWrites p) = true ↔
      ∀ q ∈ prefixesIncl p, isFileNode (fs q) = false := by
  rw [CompatB_iff]
  constructor
  · intro h q hq
    have := h (q, Node.dir) (List.mem_map_of_mem _ hq)
    exact (tyOk_dir_iff _).1 this
  · intro h pn hpn
    obtain ⟨q, hq, he⟩ := List.mem_map.1 hpn
    rw [← he]
    exact (tyOk_dir_iff _).2 (h q hq)

theorem mkdirParents_ok {fs g : FS} {p : FsPath}
    (h : mkdirParents fs p = .ok g) :
    CompatB fs (dirWrites p) = true ∧ g = applyW (dirWrites p) fs := by
  obtain ⟨hall, hg⟩ := ensureDirs_ok h
  exact ⟨(CompatB_dirWrites_iff fs p).2 hall, hg⟩

theorem mkdirParents_succ {fs : FS} {p : FsPath}
    (h : CompatB fs (dirWrites p) = true) :
    mkdirParents fs p = .ok (applyW (dirWrites p) fs) :=
  ensureDirs_succ ((CompatB_dirWrites_iff fs p).1 h)

theorem writeFile_ok {fs g : FS} {p : FsPath} {c : List Nat}
    (h : writeFile fs p c = .ok g) :
    isDirNode (fs p) = false ∧ g = setFS fs p (.file c) := by
  rw [writeFile] at h
  by_cases hd : isDirNode (fs p) = true
  · rw [if_pos hd] at h
    cases h
  · rw [if_neg hd] at h
    exact ⟨Bool.eq_false_iff.2 hd, (Except.ok.inj h).symm⟩

theorem writeFile_succ {fs : FS} {p : FsPath} {c : List Nat}
    (h : isDirNode (fs p) = false) :
    writeFile fs p c = .ok (setFS fs p (.file c)) := by
  rw [writeFile, if_neg (by rw [h]; simp)]

theorem dirWrites_snd {pn : FsPath × Node} {p : FsPath}
    (h : pn ∈ dirWrites p) : pn.2 = Node.dir := by
  obtain ⟨q, _, he⟩ := List.mem_map.1 h
  rw [← he]

theorem consist_of_dir_only {ws : List (FsPath × Node)}
    (h : ∀ pn ∈ ws, pn.2 = Node.dir) : ConsistB ws = true := by
  rw [ConsistB_iff]
  intro pn hpn qm hqm _
  rw [h pn hpn, h qm hqm]

theorem consist_dirWrites (p : FsPath) : ConsistB (dirWrites p) = true :=
  consist_of_dir_only (fun _ h => dirWrites_snd h)

theorem consist_dirWrites_append (a b : FsPath) :
    ConsistB (dirWrites a ++ dirWrites b) = true := by
  apply consist_of_dir_only
  intro pn hpn
  rcases List.mem_append.1 hpn with h | h
  · exact dirWrites_snd h
  · exact dirWrites_snd h

theorem mem_prefixesIncl_iff {q p : FsPath} :
    q ∈ prefixesIncl p ↔ ∃ k, k ≤ p.length ∧ q = p.take k := by
  rw [prefixesIncl]
  simp only [List.mem_map, List.mem_range, Nat.lt_succ_iff]
  constructor
  · rintro ⟨k, hk, he⟩
    exact ⟨k, hk, he.symm⟩
  · rintro ⟨k, hk, he⟩
    exact ⟨k, hk, he.symm⟩

theorem length_le_of_mem_prefixesIncl {q p : FsPath}
    (h : q ∈ prefixesIncl p) : q.length ≤ p.length := by
  rw [mem_prefixesIncl_iff] at h
  obtain ⟨k, hk, rfl⟩ := h
  rw [List.length_take]
  omega

theorem not_self_mem_prefixesIncl_dropLast {p : FsPath} (h : p ≠ []) :
    p ∉ prefixesIncl p.dropLast := by
  intro hm
  have hle := length_le_of_mem_prefixesIncl hm
  rw [List.length_dropLast] at hle
  have hpos : 0 < p.length := List.length_pos.2 h
  omega

theorem not_mem_dirWrites_dropLast {dest : FsPath} (h : dest ≠ [])
    (n : Node) : (dest, n) ∉ dirWrites dest.dropLast := by
  intro hm
  obtain ⟨q, hq, he⟩ := List.mem_map.1 hm
  have hqd : q = dest := congrArg Prod.fst he
  rw [hqd] at hq
  exact not_self_mem_prefixesIncl_dropLast h hq

theorem prefixesIncl_concat (p : FsPath) :
    prefixesIncl p =
      (List.range p.length).map (fun k => p.take k) ++ [p] := by
  rw [prefixesIncl, List.range_succ, List.map_append]
  simp

theorem prefixesIncl_dropLast_eq {p : FsPath} (h : p ≠ []) :
    prefixesIncl p.dropLast =
      (List.range p.length).map (fun k => p.take k) := by
  have hl : 0 < p.length := List.length_pos.2 h
  rw [prefixesIncl, List.length_dropLast]
  have h1 : p.length - 1 + 1 = p.length := by omega
  rw [h1]
  apply List.map_congr_left
  intro k hk
  rw [List.mem_range] at hk
  rw [List.dropLast_eq_take, List.take_take]
  congr 1
  omega

theorem dirWrites_decomp {p : FsPath} (h : p ≠ []) :
    dirWrites p = dirWrites p.dropLast ++ [(p, Node.dir)] := by
  rw [dirWrites, dirWrites, prefixesIncl_concat p, prefixesIncl_dropLast_eq h,
    List.map_append]
  rfl

theorem lastW_concat (ws : List (FsPath × Node)) (p : FsPath) (n : Node) :
    lastW (ws ++ [(p, n)]) p = some n := by
  rw [lastW, List.foldl_append]
  simp

theorem lastW_eq_none {ws : List (FsPath × Node)} {p : FsPath}
    (h : ∀ n, (p, n) ∉ ws) : lastW ws p = none := by
  cases hl : lastW ws p with
  | none => rfl
  | some n => exact absurd (lastW_mem hl) (h n)

theorem lastW_dirWrites_self (p : FsPath) :
    lastW (dirWrites p) p = some Node.dir := by
  by_cases h : p = []
  · subst h
    rfl
  · rw [dirWrites_decomp h, lastW_concat]

/-! ### Characterization of one extraction step -/

theorem seqWrite_ok {fs fs1 g : FS} {dest : FsPath} {c : List Nat}
    (h1 : mkdirParents fs dest.dropLast = .ok fs1)
    (h2 : writeFile fs1 dest c = .ok g) :
    ConsistB (dirWrites dest.dropLast ++ [(dest, Node.file c)]) = true ∧
    CompatB fs (dirWrites dest.dropLast ++ [(dest, Node.file c)]) = true ∧
    g = applyW (dirWrites dest.dropLast ++ [(dest, Node.file c)]) fs := by
  obtain ⟨hc1, hfs1⟩ := mkdirParents_ok h1
  obtain ⟨hnd, hg⟩ := writeFile_ok h2
  have hdest : dest ≠ [] := by
    intro he
    subst he
    rw [hfs1, applyW_apply] at hnd
    rw [show (List.dropLast ([] : FsPath)) = ([] : FsPath) from rfl,
      lastW_dirWrites_self] at hnd
    simp [isDirNode] at hnd
  have hnotmem : ∀ n, (dest, n) ∉ dirWrites dest.dropLast :=
    fun n => not_mem_dirWrites_dropLast hdest n
  have hfs1dest : fs1 dest = fs dest := by
    rw [hfs1, applyW_apply, lastW_eq_none hnotmem]
  refine ⟨?_, ?_, ?_⟩
  · rw [ConsistB_iff]
    intro pn hpn qm hqm heq
    rcases List.mem_append.1 hpn with h1' | h1' <;>
      rcases List.mem_append.1 hqm with h2' | h2'
    · rw [dirWrites_snd h1', dirWrites_snd h2']
    · exfalso
      have hqe : qm = (dest, Node.file c) := List.mem_singleton.1 h2'
      have hpn1 : pn.1 = dest := by rw [heq, hqe]
      have hpe2 : (dest, pn.2) = pn := by rw [← hpn1]
      exact hnotmem pn.2 (by rw [hpe2]; exact h1')
    · exfalso
      have hpe : pn = (dest, Node.file c) := List.mem_singleton.1 h1'
      have hq1 : qm.1 = dest := by rw [← heq, hpe]
      have hqe2 : (dest, qm.2) = qm := by rw [← hq1]
      exact hnotmem qm.2 (by rw [hqe2]; exact h2')
    · rw [List.mem_singleton.1 h1', List.mem_singleton.1 h2']
  · rw [CompatB_append_iff]
    refine ⟨hc1, ?_⟩
    rw [CompatB_iff]
    intro pn hpn
    rw [List.mem_singleton.1 hpn]
    show tyOk (fs dest) (Node.file c) = true
    rw [← hfs1dest]
    exact (tyOk_file_iff _ _).2 hnd
  · rw [applyW_append, ← hfs1, hg]
    rfl

theorem seqWrite_succ {fs : FS} {dest : FsPath} {c : List Nat}
    (hc : ConsistB (dirWrites dest.dropLast ++ [(dest, Node.file c)]) = true)
    (hf : CompatB fs (dirWrites dest.dropLast ++ [(dest, Node.file c)]) =
      true) :
    mkdirParents fs dest.dropLast =
      .ok (applyW (dirWrites dest.dropLast) fs) ∧
    writeFile (applyW (dirWrites dest.dropLast) fs) dest c =
      .ok (applyW (dirWrites dest.dropLast ++ [(dest, Node.file c)]) fs) := by
  have hparts := (CompatB_append_iff _ _ _).1 hf
  have hnm : ∀ n, (dest, n) ∉ dirWrites dest.dropLast := by
    intro n hm
    have hdirn : n = Node.dir := dirWrites_snd hm
    subst hdirn
    have := (ConsistB_iff _).1 hc (dest, Node.dir)
      (List.mem_append_left _ hm) (dest, Node.file c)
      (List.mem_append_right _ (List.mem_singleton_self _)) rfl
    cases this
  have hfsdest : applyW (dirWrites dest.dropLast) fs dest = fs dest := by
    rw [applyW_apply, lastW_eq_none hnm]
  have hnd : isDirNode (applyW (dirWrites dest.dropLast) fs dest) = false := by
    rw [hfsdest]
    have := (CompatB_iff _ _).1 hparts.2 (dest, Node.file c)
      (List.mem_singleton_self _)
    exact (tyOk_file_iff _ _).1 this
  refine ⟨mkdirParents_succ hparts.1, ?_⟩
  rw [writeFile_succ hnd, applyW_append]
  rfl

theorem seqDirs_ok {fs fs1 g : FS} {t : FsPath}
    (h1 : mkdirParents fs t.dropLast = .ok fs1)
    (h2 : mkdirParents fs1 t = .ok g) :
    CompatB fs (dirWrites t.dropLast ++ dirWrites t) = true ∧
    g = applyW (dirWrites t.dropLast ++ dirWrites t) fs := by
  obtain ⟨hc1, hfs1⟩ := mkdirParents_ok h1
  obtain ⟨hc2, hg⟩ := mkdirParents_ok h2
  constructor
  · rw [CompatB_append_iff]
    refine ⟨hc1, ?_⟩
    rw [CompatB_dirWrites_iff] at hc1 hc2 ⊢
    intro q hq
    by_cases hqmem : q ∈ prefixesIncl t.dropLast
    · exact hc1 q hqmem
    · have hnm : ∀ n, (q, n) ∉ dirWrites t.dropLast := by
        intro n hm
        obtain ⟨q', hq', he⟩ := List.mem_map.1 hm
        have : q' = q := congrArg Prod.fst he
        rw [this] at hq'
        exact hqmem hq'
      have hqfs : fs1 q = fs q := by
        rw [hfs1, applyW_apply, lastW_eq_none hnm]
      rw [← hqfs]
      exact hc2 q hq
  · rw [hg, hfs1, applyW_append]

theorem seqDirs_succ {fs : FS} {t : FsPath}
    (hf : CompatB fs (dirWrites t.dropLast ++ dirWrites t) = true) :
    mkdirParents fs t.dropLast = .ok (applyW (dirWrites t.dropLast) fs) ∧
    mkdirParents (applyW (dirWrites t.dropLast) fs) t =
      .ok (applyW (dirWrites t.dropLast ++ dirWrites t) fs) := by
  have hparts := (CompatB_append_iff _ _ _).1 hf
  refine ⟨mkdirParents_succ hparts.1, ?_⟩
  have hcomp2 : CompatB (applyW (dirWrites t.dropLast) fs) (dirWrites t) =
      true := by
    rw [CompatB_dirWrites_iff]
    intro q hq
    rw [applyW_apply]
    cases hl : lastW (dirWrites t.dropLast) q with
    | some n =>
      have : n = Node.dir := dirWrites_snd (lastW_mem hl)
      subst this
      rfl
    | none => exact (CompatB_dirWrites_iff _ _).1 hparts.2 q hq
  rw [mkdirParents_succ hcomp2, applyW_append]

theorem flattenStep_ok {od : FsPath} {root : List Char} {fs g : FS}
    {e : ZipEntry} (h : flattenStep od root fs e = .ok g) :
    ConsistB (flattenWrites od root e) = true ∧
    CompatB fs (flattenWrites od root e) = true ∧
    g = applyW (flattenWrites od root e) fs := by
  rw [flattenStep] at h
  rw [flattenWrites]
  by_cases hpre : (root ++ ['/']).isPrefixOf e.filename = true
  · rw [if_pos hpre] at h ⊢
    by_cases hrel : pyRstripSlash (e.filename.drop (root.length + 1)) = []
    · rw [if_pos hrel] at h ⊢
      exact ⟨rfl, rfl, (Except.ok.inj h).symm⟩
    · rw [if_neg hrel] at h ⊢
      by_cases hdir : e.isDirEntry = true
      · rw [if_pos hdir] at h ⊢
        obtain ⟨hcomp, hg⟩ := mkdirParents_ok h
        exact ⟨consist_dirWrites _, hcomp, hg⟩
      · rw [if_neg hdir] at h ⊢
        cases hm : mkdirParents fs
            (pathlibJoin od
              (pyRstripSlash (e.filename.drop (root.length + 1)))).dropLast
          with
        | error er =>
          rw [hm] at h
          cases h
        | ok fs1 =>
          rw [hm] at h
          exact seqWrite_ok hm h
  · rw [if_neg hpre] at h ⊢
    exact ⟨rfl, rfl, (Except.ok.inj h).symm⟩

theorem flattenStep_succ {od : FsPath} {root : List Char} {fs : FS}
    {e : ZipEntry} (hc : ConsistB (flattenWrites od root e) = true)
    (hf : CompatB fs (flattenWrites od root e) = true) :
    flattenStep od root fs e = .ok (applyW (flattenWrites od root e) fs) := by
  rw [flattenStep]
  rw [flattenWrites] at hc hf ⊢
  by_cases hpre : (root ++ ['/']).isPrefixOf e.filename = true
  · simp only [if_pos hpre] at hc hf ⊢
    by_cases hrel : pyRstripSlash (e.filename.drop (root.length + 1)) = []
    · simp only [if_pos hrel]
      rfl
    · simp only [if_neg hrel] at hc hf ⊢
      by_cases hdir : e.isDirEntry = true
      · simp only [if_pos hdir] at hf ⊢
        exact mkdirParents_succ hf
      · simp only [if_neg hdir] at hc hf ⊢
        obtain ⟨h1, h2⟩ := seqWrite_succ hc hf
        rw [h1]
        exact h2
  · simp only [if_neg hpre]
    rfl

theorem extractallStep_ok {od : FsPath} {fs g : FS} {e : ZipEntry}
    (h : extractallStep od fs e = .ok g) :
    ConsistB (extractallWrites od e) = true ∧
    CompatB fs (extractallWrites od e) = true ∧
    g = applyW (extractallWrites od e) fs := by
  rw [extractallStep] at h
  rw [extractallWrites]
  by_cases hdir : e.isDirEntry = true
  · simp only [if_pos hdir] at h ⊢
    cases hm : mkdirParents fs
        (od ++ zipSanitizedSegs e.filename).dropLast with
    | error er =>
      rw [hm] at h
      cases h
    | ok fs1 =>
      rw [hm] at h
      have h' : mkdirParents fs1 (od ++ zipSanitizedSegs e.filename) =
          .ok g := h
      obtain ⟨hcomp, hg⟩ := seqDirs_ok hm h'
      exact ⟨consist_dirWrites_append _ _, hcomp, hg⟩
  · simp only [if_neg hdir] at h ⊢
    cases hm : mkdirParents fs
        (od ++ zipSanitizedSegs e.filename).dropLast with
    | error er =>
      rw [hm] at h
      cases h
    | ok fs1 =>
      rw [hm] at h
      have h' : writeFile fs1 (od ++ zipSanitizedSegs e.filename)
          e.content = .ok g := h
      exact seqWrite_ok hm h'

theorem extractallStep_succ {od : FsPath} {fs : FS} {e : ZipEntry}
    (hc : ConsistB (extractallWrites od e) = true)
    (hf : CompatB fs (extractallWrites od e) = true) :
    extractallStep od fs e = .ok (applyW (extractallWrites od e) fs) := by
  rw [extractallStep]
  rw [extractallWrites] at hc hf ⊢
  by_cases hdir : e.isDirEntry = true
  · simp only [if_pos hdir] at hc hf ⊢
    obtain ⟨h1, h2⟩ := seqDirs_succ hf
    rw [h1]
    exact h2
  · simp only [if_neg hdir] at hc hf ⊢
    obtain ⟨h1, h2⟩ := seqWrite_succ hc hf
    rw [h1]
    exact h2

theorem stepM_ok {m : ExMode} {od : FsPath} {fs g : FS} {op : ExOp}
    (h : stepM m od fs op = .ok g) :
    ConsistB (wM m od op) = true ∧ CompatB fs (wM m od op) = true ∧
    g = applyW (wM m od op) fs := by
  cases op with
  | init =>
    obtain ⟨hcomp, hg⟩ := mkdirParents_ok h
    exact ⟨consist_dirWrites _, hcomp, hg⟩
  | ent e =>
    cases m with
    | some root => exact flattenStep_ok h
    | none => exact extractallStep_ok h

theorem stepM_succ {m : ExMode} {od : FsPath} {fs : FS} {op : ExOp}
    (hc : ConsistB (wM m od op) = true)
    (hf : CompatB fs (wM m od op) = true) :
    stepM m od fs op = .ok (applyW (wM m od op) fs) := by
  cases op with
  | init => exact mkdirParents_succ hf
  | ent e =>
    cases m with
    | some root => exact flattenStep_succ hc hf
    | none => exact extractallStep_succ hc hf

/-! ### Characterization of whole extraction runs -/

theorem runOps_cons (m : ExMode) (od : FsPath) (fs : FS) (op : ExOp)
    (ops : List ExOp) :
    runOps m od fs (op :: ops) =
      (match stepM m od fs op with
        | .error er => .error er
        | .ok fs1 => runOps m od fs1 ops) :=
  rfl

theorem wsOf_cons (m : ExMode) (od : FsPath) (op : ExOp) (ops : List ExOp) :
    wsOf m od (op :: ops) = wM m od op ++ wsOf m od ops := by
  rw [wsOf, wsOf, List.map_cons, List.flatten_cons]

theorem compat_append_of {fs : FS} {w1 w2 : List (FsPath × Node)}
    (hf1 : CompatB fs w1 = true)
    (hf2 : CompatB (applyW w1 fs) w2 = true) :
    CompatB fs (w1 ++ w2) = true := by
  rw [CompatB_append_iff]
  refine ⟨hf1, ?_⟩
  rw [CompatB_iff]
  intro qm hqm
  have h2 := (CompatB_iff _ _).1 hf2 qm hqm
  rw [applyW_apply] at h2
  cases hl : lastW w1 qm.1 with
  | none =>
    rw [hl] at h2
    exact h2
  | some n' =>
    rw [hl] at h2
    have hm : (qm.1, n') ∈ w1 := lastW_mem hl
    have h1 := (CompatB_iff _ _).1 hf1 (qm.1, n') hm
    simp only [tyOk, beq_iff_eq] at h2
    exact tyOk_of_ty_eq h1 h2

theorem runOps_ok {m : ExMode} {od : FsPath} {ops : List ExOp} {fs g : FS}
    (h : runOps m od fs ops = .ok g) :
    ConsistB (wsOf m od ops) = true ∧ CompatB fs (wsOf m od ops) = true ∧
    g = applyW (wsOf m od ops) fs := by
  induction ops generalizing fs with
  | nil => exact ⟨rfl, rfl, (Except.ok.inj h).symm⟩
  | cons op ops ih =>
    rw [runOps_cons] at h
    cases hs : stepM m od fs op with
    | error er =>
      rw [hs] at h
      cases h
    | ok fs1 =>
      rw [hs] at h
      obtain ⟨hc1, hf1, hfs1⟩ := stepM_ok hs
      obtain ⟨hc2, hf2, hg⟩ := ih h
      rw [wsOf_cons]
      subst hfs1
      refine ⟨consist_append_of_ok hc1 hc2 hf2, compat_append_of hf1 hf2, ?_⟩
      rw [applyW_append]
      exact hg

theorem runOps_succ {m : ExMode} {od : FsPath} {ops : List ExOp} {fs : FS}
    (hc : ConsistB (wsOf m od ops) = true)
    (hf : CompatB fs (wsOf m od ops) = true) :
    runOps m od fs ops = .ok (applyW (wsOf m od ops) fs) := by
  induction ops generalizing fs with
  | nil => rfl
  | cons op ops ih =>
    rw [wsOf_cons] at hc hf
    have hcparts := ConsistB_append_parts hc
    have hfparts := (CompatB_append_iff _ _ _).1 hf
    have hstep := stepM_succ hcparts.1 hfparts.1
    rw [runOps_cons, hstep]
    have hf2 : CompatB (applyW (wM m od op) fs) (wsOf m od ops) = true :=
      compat_applyW_of hf hc
    show runOps m od (applyW (wM m od op) fs) ops = _
    rw [ih hcparts.2 hf2, wsOf_cons, applyW_append]

theorem runFlatten_cons (od : FsPath) (root : List Char) (fs : FS)
    (e : ZipEntry) (es : List ZipEntry) :
    runFlatten od root fs (e :: es) =
      (match flattenStep od root fs e with
        | .error er => .error er
        | .ok fs1 => runFlatten od root fs1 es) :=
  rfl

theorem runExtractall_cons (od : FsPath) (fs : FS) (e : ZipEntry)
    (es : List ZipEntry) :
    runExtractall od fs (e :: es) =
      (match extractallStep od fs e with
        | .error er => .error er
        | .ok fs1 => runExtractall od fs1 es) :=
  rfl

theorem runOps_map_ent_flatten (od : FsPath) (root : List Char)
    (entries : List ZipEntry) (fs : FS) :
    runOps (some root) od fs (entries.map ExOp.ent) =
      runFlatten od root fs entries := by
  induction entries generalizing fs with
  | nil => rfl
  | cons e es ih =>
    rw [List.map_cons, runOps_cons, runFlatten_cons]
    show (match flattenStep od root fs e with
      | Except.error er => (Except.error er : Except FsErr FS)
      | Except.ok fs1 => runOps (some root) od fs1 (es.map ExOp.ent)) = _
    cases hs : flattenStep od root fs e with
    | error er => rfl
    | ok fs1 => exact ih fs1

theorem runOps_map_ent_extractall (od : FsPath) (entries : List ZipEntry)
    (fs : FS) :
    runOps none od fs (entries.map ExOp.ent) =
      runExtractall od fs entries := by
  induction entries generalizing fs with
  | nil => rfl
  | cons e es ih =>
    rw [List.map_cons, runOps_cons, runExtractall_cons]
    show (match extractallStep od fs e with
      | Except.error er => (Except.error er : Except FsErr FS)
      | Except.ok fs1 => runOps none od fs1 (es.map ExOp.ent)) = _
    cases hs : extractallStep od fs e with
    | error er => rfl
    | ok fs1 => exact ih fs1

theorem extract_eq_runOps (entries : List ZipEntry) (od : FsPath)
    (flatten_single_root : Bool) (fs : FS) :
    extract_zip entries od flatten_single_root fs =
      runOps (modeOf entries flatten_single_root) od fs (opsOf entries) := by
  rw [extract_zip]
  show _ = (match mkdirParents fs od with
    | Except.error er => (Except.error er : Except FsErr FS)
    | Except.ok fs0 =>
      runOps (modeOf entries flatten_single_root) od fs0
        (entries.map ExOp.ent))
  cases hm : mkdirParents fs od with
  | error er => rfl
  | ok fs0 =>
    show (match modeOf entries flatten_single_root with
      | some root => runFlatten od root fs0 entries
      | none => runExtractall od fs0 entries) = _
    cases hmode : modeOf entries flatten_single_root with
    | some root => exact (runOps_map_ent_flatten od root entries fs0).symm
    | none => exact (runOps_map_ent_extractall od entries fs0).symm

/-! ### Claim C7 — extraction idempotence -/

/-- Claim C7: if one `extract_zip` run succeeds, running it again with the
same archive, destination and flags over the resulting filesystem succeeds
and leaves the filesystem unchanged — files are overwritten with identical
contents and every directory (the destination and all parents included)
already exists, without error. -/
theorem claimC7_theorem (entries : List ZipEntry) (od : FsPath)
    (flatten_single_root : Bool) (fs g : FS)
    (h : extract_zip entries od flatten_single_root fs = .ok g) :
    extract_zip entries od flatten_single_root g = .ok g := by
  rw [extract_eq_runOps] at h ⊢
  obtain ⟨hc, hf, hg⟩ := runOps_ok h
  subst hg
  rw [runOps_succ hc (compat_self hc hf), applyW_idem]

/-- Witness for C7: re-extracting the example archive over its own first
result reproduces it exactly. -/
theorem claimC7_witness :
    extract_zip exampleEntries [chars (r"D")] true exampleResult =
      .ok exampleResult :=
  claimC7_theorem exampleEntries [chars (r"D")] true emptyFS exampleResult
    (by rfl)

/-! ### Claim C3 — flattened extraction round-trip -/

theorem extract_support {entries : List ZipEntry} {od : FsPath}
    {flatten_single_root : Bool} {fs g : FS}
    (h : extract_zip entries od flatten_single_root fs = .ok g) (p : FsPath)
    (hfs : fs p = none) (hne : g p ≠ none) :
    ∃ n, (p, n) ∈ wsOf (modeOf entries flatten_single_root) od
      (opsOf entries) := by
  rw [extract_eq_runOps] at h
  obtain ⟨-, -, hg⟩ := runOps_ok h
  rw [hg, applyW_apply] at hne
  cases hl : lastW (wsOf (modeOf entries flatten_single_root) od
      (opsOf entries)) p with
  | none =>
    rw [hl, hfs] at hne
    exact absurd rfl hne
  | some n => exact ⟨n, lastW_mem hl⟩

theorem flattenStep_skip_marker {od : FsPath} {root : List Char} {fs : FS}
    {e : ZipEntry} (hpre : (root ++ ['/']).isPrefixOf e.filename = true)
    (hrel : pyRstripSlash (e.filename.drop (root.length + 1)) = []) :
    flattenStep od root fs e = .ok fs := by
  rw [flattenStep, if_pos hpre, if_pos hrel]

theorem flattenStep_writes_dest {od : FsPath} {root : List Char} {fs g : FS}
    {e : ZipEntry} (hpre : (root ++ ['/']).isPrefixOf e.filename = true)
    (hrel : pyRstripSlash (e.filename.drop (root.length + 1)) ≠ [])
    (h : flattenStep od root fs e = .ok g) :
    g (pathlibJoin od (pyRstripSlash (e.filename.drop (root.length + 1)))) =
      some (if e.isDirEntry then Node.dir else Node.file e.content) := by
  obtain ⟨-, -, hg⟩ := flattenStep_ok h
  rw [hg, flattenWrites]
  simp only [if_pos hpre, if_neg hrel]
  by_cases hdir : e.isDirEntry = true
  · simp only [if_pos hdir]
    rw [applyW_apply, lastW_dirWrites_self]
  · simp only [if_neg hdir]
    rw [applyW_apply, lastW_concat]

/-- Claim C3: extracting the archive `{proj/main.tex ↦ "X", proj/sub/}`
with flattening into `D` yields the file `D/main.tex` with content `"X"`
and the directory `D/sub`, creates no `D/proj` path — indeed nothing
outside `{root, D, D/main.tex, D/sub}` — and in general a prefixed entry
whose stripped remainder is empty is skipped while any other prefixed entry
is written at its prefix-stripped destination. -/
theorem claimC3_theorem :
    exampleResult [chars (r"D"), chars (r"main.tex")] =
      some (Node.file [88]) ∧
    exampleResult [chars (r"D"), chars (r"sub")] = some Node.dir ∧
    exampleResult [chars (r"D"), chars (r"proj")] = none ∧
    (∀ p : FsPath, exampleResult p ≠ none →
      p ∈ ([[], [chars (r"D")], [chars (r"D"), chars (r"main.tex")],
        [chars (r"D"), chars (r"sub")]] : List FsPath)) ∧
    (∀ (od : FsPath) (root : List Char) (fs : FS) (e : ZipEntry),
      (root ++ ['/']).isPrefixOf e.filename = true →
      pyRstripSlash (e.filename.drop (root.length + 1)) = [] →
      flattenStep od root fs e = .ok fs) ∧
    (∀ (od : FsPath) (root : List Char) (fs g : FS) (e : ZipEntry),
      (root ++ ['/']).isPrefixOf e.filename = true →
      pyRstripSlash (e.filename.drop (root.length + 1)) ≠ [] →
      flattenStep od root fs e = .ok g →
      g (pathlibJoin od
          (pyRstripSlash (e.filename.drop (root.length + 1)))) =
        some (if e.isDirEntry then Node.dir else Node.file e.content)) := by
  refine ⟨by decide, by decide, by decide, ?_, ?_, ?_⟩
  · intro p hp
    have h : extract_zip exampleEntries [chars (r"D")] true emptyFS =
        .ok exampleResult := rfl
    obtain ⟨n, hn⟩ := extract_support h p rfl hp
    have hall : ∀ pn ∈ wsOf (modeOf exampleEntries true) [chars (r"D")]
        (opsOf exampleEntries), pn.1 ∈ ([[], [chars (r"D")],
          [chars (r"D"), chars (r"main.tex")],
          [chars (r"D"), chars (r"sub")]] : List FsPath) := by decide
    exact hall (p, n) hn
  · intro od root fs e hpre hrel
    exact flattenStep_skip_marker hpre hrel
  · intro od root fs g e hpre hrel h
    exact flattenStep_writes_dest hpre hrel h

/-- Witness for C3's general clauses at a concrete entry: the bare marker
`proj/` is skipped and `proj/sub/` is written at `D/sub`. -/
theorem claimC3_witness :
    flattenStep [chars (r"D")] (chars (r"proj")) emptyFS
      ⟨chars (r"proj/"), []⟩ = .ok emptyFS ∧
    exampleResult [chars (r"D"), chars (r"main.tex")] =
      some (Node.file [88]) :=
  ⟨(claimC3_theorem.2.2.2.2.1) _ _ _ _ (by decide) (by decide),
   claimC3_theorem.1⟩

/-! ### Claim C10 — bare-root entry dropped during flattening -/

/-- Claim C10: during flattening only entries whose name starts with
`root ++ "/"` are processed; the bare name `root` itself never passes this
check, so an archive entry whose full path equals the detected root is
silently skipped — concretely, for `{proj ↦ "c", proj/a.tex ↦ "X"}` the
root `proj` is detected, extraction writes only the destination root and
`a.tex`, and nothing is written for the bare `proj` entry anywhere. -/
theorem claimC10_theorem :
    (∀ (od : FsPath) (root : List Char) (fs : FS) (e : ZipEntry),
      (root ++ ['/']).isPrefixOf e.filename = false →
      flattenStep od root fs e = .ok fs) ∧
    (∀ root : List Char, (root ++ ['/']).isPrefixOf root = false) ∧
    _single_root_dir [chars (r"proj"), chars (r"proj/a.tex")] =
      some (chars (r"proj")) ∧
    bareRootResult [chars (r"proj")] = none ∧
    bareRootResult [chars (r"a.tex")] = some (Node.file [88]) ∧
    (∀ p : FsPath, bareRootResult p ≠ none →
      p ∈ ([[], [chars (r"a.tex")]] : List FsPath)) := by
  refine ⟨?_, ?_, by decide, by decide, by decide, ?_⟩
  · intro od root fs e h
    rw [flattenStep, if_neg (by rw [h]; simp)]
  · intro root
    cases hb : (root ++ ['/']).isPrefixOf root with
    | false => rfl
    | true =>
      exfalso
      obtain ⟨t, ht⟩ := (isPrefixOf_eq_true_iff _ _).1 hb
      have hlen := congrArg List.length ht
      simp only [List.length_append, List.length_cons,
        List.length_nil] at hlen
      omega
  · intro p hp
    have h : extract_zip bareRootEntries [] true emptyFS =
        .ok bareRootResult := rfl
    obtain ⟨n, hn⟩ := extract_support h p rfl hp
    have hall : ∀ pn ∈ wsOf (modeOf bareRootEntries true) []
        (opsOf bareRootEntries),
        pn.1 ∈ ([[], [chars (r"a.tex")]] : List FsPath) := by decide
    exact hall (p, n) hn

/-- Witness for C10's skip clause at the bare entry `proj` itself. -/
theorem claimC10_witness :
    flattenStep [] (chars (r"proj")) emptyFS ⟨chars (r"proj"), [99]⟩ =
      .ok emptyFS :=
  claimC10_theorem.1 _ _ _ _ (by decide)

/-! ### Claim C9 — session frame condition -/

theorem mainAfterToken_headers {args : Args}
    {zipGet : Headers → HttpBytesResponse}
    {parseZip : List Nat → List ZipEntry} {fs fs2 : FS}
    {h1 hFin : Headers}
    (h : mainAfterToken args zipGet parseZip fs h1 = .ok (fs2, hFin)) :
    hFin = h1 := by
  rw [mainAfterToken] at h
  cases hdl : download_zip (_normalize_base_url args.base_url)
      args.project_id (zipGet h1) with
  | error e =>
    rw [hdl] at h
    cases h
  | ok zb =>
    rw [hdl] at h
    have h2 : (match extract_zip (parseZip zb) args.output_dir true fs with
        | Except.error er =>
          (Except.error (Sum.inr er) : Except (Err ⊕ FsErr) (FS × Headers))
        | Except.ok fs2 => Except.ok (fs2, h1)) = .ok (fs2, hFin) := h
    cases hex : extract_zip (parseZip zb) args.output_dir true fs with
    | error er =>
      rw [hex] at h2
      cases h2
    | ok fs2' =>
      rw [hex] at h2
      have h3 := Except.ok.inj h2
      exact (congrArg Prod.snd h3).symm

theorem getHeader_setHeader_ne (hs : Headers) (k v : List Char)
    {k' : List Char} (h : k' ≠ k) :
    getHeader (setHeader hs k v) k' = getHeader hs k' := by
  induction hs with
  | nil =>
    simp only [setHeader, getHeader, List.filter_nil, List.nil_append]
    rw [List.find?_cons_of_neg _ (by simpa using fun he => h he.symm)]
  | cons p hs ih =>
    simp only [setHeader, getHeader] at ih ⊢
    by_cases hp : p.1 = k
    · rw [List.filter_cons_of_neg (by simpa using hp)]
      rw [List.find?_cons_of_neg _
        (by simp only [decide_eq_true_eq]; rw [hp]; exact fun he => h he.symm)]
      exact ih
    · rw [List.filter_cons_of_pos (by simpa using hp)]
      by_cases hpk : p.1 = k'
      · rw [List.cons_append,
          List.find?_cons_of_pos _ (by simpa using hpk),
          List.find?_cons_of_pos _ (by simpa using hpk)]
      · rw [List.cons_append,
          List.find?_cons_of_neg _ (by simpa using hpk),
          List.find?_cons_of_neg _ (by simpa using hpk)]
        exact ih

/-- Claim C9: the token fetch does not mutate the session (the run depends
on the page transport only through the one request issued with the freshly
constructed headers), and across the whole run the headers are changed at
most once, namely by the token attachment between the token fetch and the
archive fetch — the download is issued with exactly the initial headers
plus, when and only when a non-empty token was found, the `X-CSRF-Token`
entry; every other header is untouched. -/
theorem claimC9_theorem (args : Args)
    (pageGet : Headers → HttpTextResponse)
    (zipGet : Headers → HttpBytesResponse)
    (parseZip : List Nat → List ZipEntry) (fs fs2 : FS) (hFin : Headers)
    (h : main args pageGet zipGet parseZip fs = .ok (fs2, hFin)) :
    (hFin = initialHeaders args ∨
      ∃ t, get_csrf_token (_normalize_base_url args.base_url)
          args.project_id (pageGet (initialHeaders args)) = .ok (some t) ∧
        t ≠ [] ∧
        hFin = setHeader (initialHeaders args) (chars (r"X-CSRF-Token")) t) ∧
    (get_csrf_token (_normalize_base_url args.base_url) args.project_id
        (pageGet (initialHeaders args)) = .ok none →
      hFin = initialHeaders args) ∧
    (∀ k, k ≠ chars (r"X-CSRF-Token") →
      getHeader hFin k = getHeader (initialHeaders args) k) ∧
    (∀ pageGet' : Headers → HttpTextResponse,
      pageGet' (initialHeaders args) = pageGet (initialHeaders args) →
      main args pageGet' zipGet parseZip fs =
        main args pageGet zipGet parseZip fs) ∧
    (∀ zipGet' : Headers → HttpBytesResponse, zipGet' hFin = zipGet hFin →
      main args pageGet zipGet' parseZip fs =
        main args pageGet zipGet parseZip fs) := by
  rw [main] at h
  cases hcs : get_csrf_token (_normalize_base_url args.base_url)
      args.project_id (pageGet (initialHeaders args)) with
  | error e =>
    rw [hcs] at h
    cases h
  | ok csrf =>
    rw [hcs] at h
    have h' : mainAfterToken args zipGet parseZip fs
        (tokenHeaders (initialHeaders args) csrf) = .ok (fs2, hFin) := h
    have hH : hFin = tokenHeaders (initialHeaders args) csrf :=
      mainAfterToken_headers h'
    have hshape : hFin = initialHeaders args ∨
        ∃ t, csrf = some t ∧ t ≠ [] ∧
          hFin = setHeader (initialHeaders args)
            (chars (r"X-CSRF-Token")) t := by
      rw [hH]
      cases csrf with
      | none => exact Or.inl rfl
      | some t =>
        by_cases ht : t = []
        · refine Or.inl ?_
          show (if t = [] then initialHeaders args
            else setHeader (initialHeaders args)
              (chars (r"X-CSRF-Token")) t) = _
          rw [if_pos ht]
        · refine Or.inr ⟨t, rfl, ht, ?_⟩
          show (if t = [] then initialHeaders args
            else setHeader (initialHeaders args)
              (chars (r"X-CSRF-Token")) t) = _
          rw [if_neg ht]
    refine ⟨?_, ?_, ?_, ?_, ?_⟩
    · rcases hshape with hh | ⟨t, hct, ht, hh⟩
      · exact Or.inl hh
      · exact Or.inr ⟨t, by rw [hct], ht, hh⟩
    · intro hnone
      have hcn : csrf = none := Except.ok.inj hnone
      subst hcn
      rw [hH]
      rfl
    · intro k hk
      rcases hshape with hh | ⟨t, _, _, hh⟩
      · rw [hh]
      · rw [hh]
        exact getHeader_setHeader_ne _ _ _ hk
    · intro pg' hagree
      rw [main, main, hagree]
    · intro zg' hagree
      rw [main, main, hcs]
      show mainAfterToken args zg' parseZip fs
          (tokenHeaders (initialHeaders args) csrf) =
        mainAfterToken args zipGet parseZip fs
          (tokenHeaders (initialHeaders args) csrf)
      rw [mainAfterToken, mainAfterToken, ← hH, hagree]

/-- Witness for C9 at the concrete mock run: the `Cookie` header is the
same before and after the whole run. -/
theorem claimC9_witness :
    getHeader c9result.2 (chars (r"Cookie")) =
      getHeader (initialHeaders c9args) (chars (r"Cookie")) :=
  (claimC9_theorem c9args c9pageGet c9zipGet c9parse emptyFS c9result.1
    c9result.2 (by rfl)).2.2.1 (chars (r"Cookie")) (by decide)

end OverleafPull
